import Mathlib

/-!
# Verification of the weiqi.js Go rules engine (`src/lib/board.js`)

A shallow embedding of the board engine: the `Point` record, the stones
mapping (an `Immutable.Map` from points to colors, embedded as an
association list with `Immutable.Map.get` / `Immutable.Map.set`
semantics), the breadth-first group search `getGroup`, the move
application `play` with capture and suicide resolution, and the
area scoring `areaScore`.

The recursive helper `search` inside `getGroup` recurses on immutable
queue/visited values.  The embedding makes it structurally recursive on
an explicit `fuel` argument; `getGroup` supplies `searchMeasure`, the
standard BFS termination measure, as the fuel, and the lemma
`search_fuel_irrelevant` proves that any fuel of at least this measure
gives the same result, so the fuel argument never changes the semantics
of the source recursion.
-/

namespace Weiqi

/-- The `Constants` color enumeration: EMPTY, BLACK, WHITE. -/
inductive Color
  | EMPTY
  | BLACK
  | WHITE
deriving DecidableEq

/-- `Point`: the `Immutable.Record({i, j})` used as a board coordinate. -/
structure Point where
  i : Int
  j : Int
deriving DecidableEq

/-- The stones mapping: an `Immutable.Map` from `Point` to `Color`,
embedded as an association list. -/
abbrev Stones := List (Point × Color)

/-- `Immutable.Map.get` without a default: the value bound to `k`, if any. -/
def mapGet (m : Stones) (k : Point) : Option Color :=
  match m with
  | [] => none
  | (k', v) :: rest => if k' = k then some v else mapGet rest k

/-- `Immutable.Map.set`: overwrite the binding of an existing key, or
append a new entry. -/
def mapSet (m : Stones) (k : Point) (v : Color) : Stones :=
  match m with
  | [] => [(k, v)]
  | (k', v') :: rest => if k' = k then (k, v) :: rest else (k', v') :: mapSet rest k v

/-- `getStone(stones, coords)`: `stones.get(coords, Constants.EMPTY)`. -/
def getStone (stones : Stones) (coords : Point) : Color :=
  (mapGet stones coords).getD Color.EMPTY

/-- `replaceStone(stones, coords, value)`: `stones.set(coords, value)`. -/
def replaceStone (stones : Stones) (coords : Point) (value : Color) : Stones :=
  mapSet stones coords value

/-- `inBounds(size, point)`: `0 ≤ i < size ∧ 0 ≤ j < size`
(the source returns this as a boolean). -/
def inBounds (size : Int) (p : Point) : Prop :=
  0 ≤ p.i ∧ p.i < size ∧ 0 ≤ p.j ∧ p.j < size

instance (size : Int) (p : Point) : Decidable (inBounds size p) := by
  unfold inBounds
  infer_instance

/-- The four orthogonal offsets, in source order: north, east, south, west. -/
def deltas : List Point := [⟨-1, 0⟩, ⟨0, 1⟩, ⟨1, 0⟩, ⟨0, -1⟩]

/-- `getAdjacentIntersections(size, coords)`: the orthogonally adjacent
in-bounds coordinates of `coords`. -/
def getAdjacentIntersections (size : Int) (coords : Point) : List Point :=
  (deltas.map (fun v => Point.mk (v.i + coords.i) (v.j + coords.j))).filter
    (fun c => decide (inBounds size c))

/-- `allPositions(size)`: `Range(0, size).flatMap(i => range.map(j => Point(i, j)))`,
the full grid in row-major order. -/
def allPositions (size : Int) : List Point :=
  (List.range size.toNat).flatMap
    (fun (i : Nat) => (List.range size.toNat).map (fun (j : Nat) => Point.mk (i : Int) (j : Int)))

lemma mem_allPositions {size : Int} {p : Point} :
    p ∈ allPositions size ↔ inBounds size p := by
  unfold allPositions inBounds
  constructor
  · intro h
    rcases List.mem_flatMap.mp h with ⟨i, hi, hmem⟩
    rcases List.mem_map.mp hmem with ⟨j, hj, rfl⟩
    rw [List.mem_range] at hi hj
    refine ⟨?_, ?_, ?_, ?_⟩ <;> simp <;> omega
  · rintro ⟨h1, h2, h3, h4⟩
    apply List.mem_flatMap.mpr
    refine ⟨p.i.toNat, List.mem_range.mpr (by omega), ?_⟩
    apply List.mem_map.mpr
    refine ⟨p.j.toNat, List.mem_range.mpr (by omega), ?_⟩
    have e1 : ((p.i.toNat : Int)) = p.i := Int.toNat_of_nonneg h1
    have e2 : ((p.j.toNat : Int)) = p.j := Int.toNat_of_nonneg h3
    rw [e1, e2]

/-- The in-bounds coordinates, as a finite set (used by the BFS measure). -/
def inBoundsFinset (size : Int) : Finset Point :=
  (allPositions size).toFinset

lemma mem_getAdjacentIntersections {size : Int} {p q : Point}
    (h : q ∈ getAdjacentIntersections size p) : inBounds size q := by
  unfold getAdjacentIntersections at h
  simp only [List.mem_filter, decide_eq_true_eq] at h
  exact h.2

lemma inBounds_mem_inBoundsFinset {size : Int} {p : Point} (h : inBounds size p) :
    p ∈ inBoundsFinset size := by
  unfold inBoundsFinset
  exact List.mem_toFinset.mpr (mem_allPositions.mpr h)

lemma length_getAdjacentIntersections (size : Int) (p : Point) :
    (getAdjacentIntersections size p).length ≤ 4 := by
  unfold getAdjacentIntersections
  have := List.length_filter_le
    (fun c => decide (inBounds size c))
    (deltas.map (fun v => Point.mk (v.i + p.i) (v.j + p.j)))
  simpa [deltas] using this

/-- The standard BFS termination measure: five times the number of
not-yet-visited candidate points (the in-bounds points plus the seed),
plus the queue length.  Every step of `search` strictly decreases it. -/
def searchMeasure (size : Int) (seed : Point) (visited queue : List Point) : Nat :=
  5 * ((insert seed (inBoundsFinset size)).filter (fun p => p ∉ visited)).card + queue.length

/-- The recursive helper `search(visited, queue, surrounding)` of
`getGroup`: pop a queued point; skip it if visited, otherwise absorb its
same-color neighbors into the queue, record its differing neighbors in
`surrounding`, and mark it visited.  `fuel` makes the recursion
structural; `getGroup` passes `searchMeasure`, which suffices
(`search_fuel_irrelevant`), so the exhaustion branch is never taken. -/
def search (stones : Stones) (size : Int) (color : Color) :
    Nat → List Point → List Point → Stones → List Point × Stones
  | _, visited, [], surrounding => (visited, surrounding)
  | 0, visited, _ :: _, surrounding => (visited, surrounding)
  | fuel + 1, visited, stone :: rest, surrounding =>
    if stone ∈ visited then
      search stones size color fuel visited rest surrounding
    else
      let neighbors := getAdjacentIntersections size stone
      let newQueue := rest ++ neighbors.filter (fun n => decide (getStone stones n = color))
      let newSurrounding :=
        (neighbors.filter (fun n => decide (getStone stones n ≠ color))).foldl
          (fun s n => mapSet s n (getStone stones n)) surrounding
      search stones size color fuel (stone :: visited) newQueue newSurrounding

/-- The `Group` result of `getGroup`: liberty count, member stones
(the final `visited` set) and the boundary mapping. -/
structure Group where
  liberties : Nat
  stones : List Point
  surrounding : Stones
deriving DecidableEq

/-- `getGroup(stones, size, coords)`: breadth-first search from `coords`
over same-color orthogonally connected points; `liberties` counts the
`surrounding` entries whose color is EMPTY. -/
def getGroup (stones : Stones) (size : Int) (coords : Point) : Group :=
  let color := getStone stones coords
  let res := search stones size color (searchMeasure size coords [] [coords]) [] [coords] []
  { liberties := (res.2.filter (fun pc => decide (pc.2 = Color.EMPTY))).length
    stones := res.1
    surrounding := res.2 }

/-- A `Board` value: the `size` and the stones mapping captured by the
object returned from `createBoard`. -/
structure Board where
  size : Int
  stones : Stones
deriving DecidableEq

/-- `createBoard(size, stones)`: throws "Size must be an integer greater
than zero" when `size` is `undefined` (`none`) or negative; a missing
`stones` argument defaults to the empty map. -/
def createBoard (size : Option Int) (stones : Option Stones) : Except String Board :=
  if size = none ∨ size.getD 0 < 0 then
    .error "Size must be an integer greater than zero"
  else
    .ok { size := size.getD 0, stones := stones.getD [] }

/-- `Board.getStone(coords)`. -/
def Board.getStone (b : Board) (coords : Point) : Color :=
  Weiqi.getStone b.stones coords

/-- The capture pipeline inside `play`: the adjacent points of `coords`
paired with their colors on the tentative board, filtered to the
opponent's color, mapped to their groups, and filtered to the dead ones
(`liberties == 0`). -/
def capturedFromNeighbors (stones : Stones) (size : Int) (color : Color) (coords : Point) :
    List Group :=
  let neighbors := getAdjacentIntersections size coords
  let neighborColors := neighbors.map (fun n => (n, getStone stones n))
  let opponent := neighborColors.filter
    (fun nc => decide (nc.2 ≠ color ∧ nc.2 ≠ Color.EMPTY))
  (opponent.map (fun nc => getGroup stones size nc.1)).filter
    (fun g => decide (g.liberties = 0))

/-- The suicide check of `play`: when no opponent group was captured and
the newly placed stone's own group is dead, that own group becomes the
sole item to remove; otherwise the capture set stands. -/
def finalCaptured (stones : Stones) (size : Int) (color : Color) (coords : Point) :
    List Group :=
  let captured := capturedFromNeighbors stones size color coords
  let newGroup := getGroup stones size coords
  if captured = [] ∧ newGroup.liberties = 0 then [newGroup] else captured

/-- The capture-removal fold of `play`, applied to an arbitrary list of
stones to clear. -/
def removeStones (m : Stones) (l : List Point) : Stones :=
  l.foldl (fun acc stone => replaceStone acc stone Color.EMPTY) m

/-- `Board.play(color, coords)`: place a stone, capture dead adjacent
opponent groups, remove the own group instead when nothing was captured
and it is dead (suicide), and wrap the result via `createBoard`. -/
def play (b : Board) (color : Color) (coords : Point) : Except String Board :=
  if ¬ inBounds b.size coords then
    .error "Intersection out of bounds"
  else if getStone b.stones coords ≠ Color.EMPTY then
    .error "Intersection occupied by existing stone"
  else
    let newBoard := replaceStone b.stones coords color
    let captured := finalCaptured newBoard b.size color coords
    createBoard (some b.size)
      (some (removeStones newBoard (captured.flatMap (fun g => g.stones))))

/-- `group.get('surrounding').valueSeq().toSet()`: the distinct colors on
the boundary of a group. -/
def distinctSurroundingColors (g : Group) : List Color :=
  (g.surrounding.map Prod.snd).dedup

/-- `score[c] += n` for the two-color score record of `areaScore`
(`.1` is BLACK's count, `.2` WHITE's).  `areaScore` never adds to the
EMPTY key: a stone seed has a non-EMPTY state, and the boundary of an
empty region records only non-EMPTY colors. -/
def addScore (score : Nat × Nat) (c : Color) (n : Nat) : Nat × Nat :=
  match c with
  | Color.BLACK => (score.1 + n, score.2)
  | Color.WHITE => (score.1, score.2 + n)
  | Color.EMPTY => score

/-- The loop body of `areaScore`: skip visited seeds; score a stone
group to its color, an empty region to its unique bordering color if
there is exactly one, and union the group into `visited`. -/
def scoreStep (stones : Stones) (size : Int) (acc : List Point × (Nat × Nat)) (coords : Point) :
    List Point × (Nat × Nat) :=
  if coords ∈ acc.1 then acc
  else
    let state := getStone stones coords
    let group := getGroup stones size coords
    let newScore :=
      if state = Color.EMPTY then
        match distinctSurroundingColors group with
        | [c] => addScore acc.2 c group.stones.length
        | _ => acc.2
      else addScore acc.2 state group.stones.length
    (acc.1 ++ group.stones.filter (fun q => decide (q ∉ acc.1)), newScore)

/-- `Board.areaScore()`: fold the loop body over all positions in
row-major order, starting from an empty visited set and zero scores. -/
def areaScore (b : Board) : Nat × Nat :=
  ((allPositions b.size).foldl (scoreStep b.stones b.size) ([], (0, 0))).2

/-- The boards reachable from `createBoard` with no initial stones by
successful `play` calls. -/
inductive Reachable : Board → Prop
  | created (size : Int) (b : Board) :
      createBoard (some size) none = .ok b → Reachable b
  | played (b : Board) (color : Color) (coords : Point) (b' : Board) :
      Reachable b → play b color coords = .ok b' → Reachable b'

/-- One step of group connectivity: `q` is an in-bounds orthogonal
neighbor of `p` carrying `color`. -/
def adjStep (stones : Stones) (size : Int) (color : Color) (p q : Point) : Prop :=
  q ∈ getAdjacentIntersections size p ∧ getStone stones q = color

/-- `q` belongs to the connected same-color region of `seed`. -/
def reachesFrom (stones : Stones) (size : Int) (color : Color) (seed q : Point) : Prop :=
  Relation.ReflTransGen (adjStep stones size color) seed q

instance : DecidableEq (Except String Board) :=
  fun a b =>
    match a, b with
    | .error x, .error y =>
      if h : x = y then .isTrue (by rw [h]) else .isFalse (fun heq => h (Except.error.inj heq))
    | .ok x, .ok y =>
      if h : x = y then .isTrue (by rw [h]) else .isFalse (fun heq => h (Except.ok.inj heq))
    | .error _, .ok _ => .isFalse (fun heq => Except.noConfusion heq)
    | .ok _, .error _ => .isFalse (fun heq => Except.noConfusion heq)

/-! ## Association-list lemmas for the stones mapping -/

lemma mapGet_mapSet_self (m : Stones) (k : Point) (v : Color) :
    mapGet (mapSet m k v) k = some v := by
  induction m with
  | nil => simp [mapGet, mapSet]
  | cons hd tl ih =>
    obtain ⟨k', v'⟩ := hd
    by_cases h : k' = k
    · simp [mapGet, mapSet, h]
    · simp [mapGet, mapSet, h, ih]

lemma mapGet_mapSet_ne (m : Stones) {k k' : Point} (v : Color) (h : k' ≠ k) :
    mapGet (mapSet m k v) k' = mapGet m k' := by
  have hkk : k ≠ k' := fun heq => h heq.symm
  induction m with
  | nil => simp [mapGet, mapSet, hkk]
  | cons hd tl ih =>
    obtain ⟨a, b⟩ := hd
    by_cases ha : a = k
    · subst ha
      simp [mapGet, mapSet, hkk]
    · simp only [mapSet, ha, if_neg, not_false_iff]
      by_cases ha' : a = k'
      · simp [mapGet, ha']
      · simp [mapGet, ha', ih]

lemma mem_mapSet {m : Stones} {k : Point} {v : Color} {pc : Point × Color}
    (h : pc ∈ mapSet m k v) : pc = (k, v) ∨ pc ∈ m := by
  induction m with
  | nil => simpa [mapSet] using h
  | cons hd tl ih =>
    obtain ⟨a, b⟩ := hd
    by_cases ha : a = k
    · simp only [mapSet, ha, if_pos] at h
      rcases List.mem_cons.mp h with h | h
      · exact Or.inl h
      · exact Or.inr (List.mem_cons_of_mem _ h)
    · simp only [mapSet, ha, if_neg, not_false_iff] at h
      rcases List.mem_cons.mp h with h | h
      · exact Or.inr (List.mem_cons.mpr (Or.inl h))
      · rcases ih h with h | h
        · exact Or.inl h
        · exact Or.inr (List.mem_cons_of_mem _ h)

lemma mapGet_eq_some_mem {m : Stones} {k : Point} {c : Color}
    (h : mapGet m k = some c) : (k, c) ∈ m := by
  induction m with
  | nil => simp [mapGet] at h
  | cons hd tl ih =>
    obtain ⟨a, b⟩ := hd
    by_cases ha : a = k
    · subst ha
      simp only [mapGet, if_pos] at h
      obtain rfl := Option.some.inj h
      exact List.mem_cons_self _ _
    · simp only [mapGet, ha, if_neg, not_false_iff] at h
      exact List.mem_cons_of_mem _ (ih h)

lemma mapGet_isSome_of_mem {m : Stones} {k : Point} {c : Color}
    (h : (k, c) ∈ m) : ∃ c', mapGet m k = some c' := by
  induction m with
  | nil => simp at h
  | cons hd tl ih =>
    obtain ⟨a, b⟩ := hd
    by_cases ha : a = k
    · exact ⟨b, by simp [mapGet, ha]⟩
    · rcases List.mem_cons.mp h with h | h
      · exact absurd (congrArg Prod.fst h).symm ha
      · simpa [mapGet, ha] using ih h

lemma mem_mapGet_of_keysNodup {m : Stones} {k : Point} {c : Color}
    (hnd : (m.map Prod.fst).Nodup) (h : (k, c) ∈ m) : mapGet m k = some c := by
  induction m with
  | nil => simp at h
  | cons hd tl ih =>
    obtain ⟨a, b⟩ := hd
    simp only [List.map_cons, List.nodup_cons] at hnd
    rcases List.mem_cons.mp h with h | h
    · rw [← h]
      simp [mapGet]
    · have hkmem : k ∈ tl.map Prod.fst := List.mem_map.mpr ⟨(k, c), h, rfl⟩
      have hak : a ≠ k := fun heq => hnd.1 (heq.symm ▸ hkmem)
      simp only [mapGet, hak, if_neg, not_false_iff]
      exact ih hnd.2 h

lemma mem_keys_mapSet {m : Stones} {k a : Point} {v : Color} :
    a ∈ (mapSet m k v).map Prod.fst ↔ a = k ∨ a ∈ m.map Prod.fst := by
  induction m with
  | nil => simp [mapSet]
  | cons hd tl ih =>
    obtain ⟨x, y⟩ := hd
    by_cases hx : x = k
    · subst hx
      simp [mapSet]
    · simp only [mapSet, hx, if_neg, not_false_iff, List.map_cons, List.mem_cons, ih]
      tauto

lemma keysNodup_mapSet {m : Stones} {k : Point} {v : Color}
    (hnd : (m.map Prod.fst).Nodup) : ((mapSet m k v).map Prod.fst).Nodup := by
  induction m with
  | nil => simp [mapSet]
  | cons hd tl ih =>
    obtain ⟨x, y⟩ := hd
    simp only [List.map_cons, List.nodup_cons] at hnd
    by_cases hx : x = k
    · subst hx
      simp only [mapSet, if_pos, List.map_cons, List.nodup_cons]
      exact hnd
    · simp only [mapSet, hx, if_neg, not_false_iff, List.map_cons, List.nodup_cons]
      refine ⟨?_, ih hnd.2⟩
      intro hmem
      rcases mem_keys_mapSet.mp hmem with h | h
      · exact hx h
      · exact hnd.1 h

lemma getStone_replaceStone_self (m : Stones) (k : Point) (v : Color) :
    getStone (replaceStone m k v) k = v := by
  simp [getStone, replaceStone, mapGet_mapSet_self]

lemma getStone_replaceStone_ne (m : Stones) {k q : Point} (v : Color) (h : q ≠ k) :
    getStone (replaceStone m k v) q = getStone m q := by
  simp [getStone, replaceStone, mapGet_mapSet_ne m v h]

lemma mapGet_removeStones (m : Stones) (l : List Point) (q : Point) :
    mapGet (removeStones m l) q =
      if q ∈ l then some Color.EMPTY else mapGet m q := by
  induction l generalizing m with
  | nil => simp [removeStones]
  | cons s rest ih =>
    show mapGet (removeStones (replaceStone m s Color.EMPTY) rest) q = _
    rw [ih]
    by_cases hq : q ∈ rest
    · simp [hq]
    · by_cases hqs : q = s
      · subst hqs
        simp [hq, replaceStone, mapGet_mapSet_self]
      · simp [hq, hqs, replaceStone, mapGet_mapSet_ne m Color.EMPTY hqs]

lemma getStone_removeStones (m : Stones) (l : List Point) (q : Point) :
    getStone (removeStones m l) q =
      if q ∈ l then Color.EMPTY else getStone m q := by
  unfold getStone
  rw [mapGet_removeStones]
  by_cases hq : q ∈ l <;> simp [hq]

/-! ## Termination measure lemmas for `search` -/

lemma filter_card_notMem_cons {size : Int} {seed stone : Point} {visited : List Point}
    (hstone : inBounds size stone ∨ stone = seed) (hv : stone ∉ visited) :
    ((insert seed (inBoundsFinset size)).filter (fun p => p ∉ stone :: visited)).card + 1
      = ((insert seed (inBoundsFinset size)).filter (fun p => p ∉ visited)).card := by
  have hstone' : stone ∈ (insert seed (inBoundsFinset size)).filter (fun p => p ∉ visited) := by
    rcases hstone with h | h
    · exact Finset.mem_filter.mpr ⟨Finset.mem_insert_of_mem (inBounds_mem_inBoundsFinset h), hv⟩
    · exact Finset.mem_filter.mpr ⟨by simp [h], hv⟩
  have herase : (insert seed (inBoundsFinset size)).filter (fun p => p ∉ stone :: visited)
      = ((insert seed (inBoundsFinset size)).filter (fun p => p ∉ visited)).erase stone := by
    ext x
    simp only [Finset.mem_filter, Finset.mem_erase, List.mem_cons]
    tauto
  rw [herase, Finset.card_erase_of_mem hstone']
  have : 0 < ((insert seed (inBoundsFinset size)).filter (fun p => p ∉ visited)).card :=
    Finset.card_pos.mpr ⟨stone, hstone'⟩
  omega

lemma searchMeasure_skip {size : Int} {seed : Point} {visited rest : List Point}
    {stone : Point} :
    searchMeasure size seed visited rest + 1 = searchMeasure size seed visited (stone :: rest) := by
  simp [searchMeasure]
  omega

lemma searchMeasure_absorb_lt {size : Int} {seed stone : Point} {visited rest l : List Point}
    (hstone : inBounds size stone ∨ stone = seed) (hv : stone ∉ visited) (hl : l.length ≤ 4) :
    searchMeasure size seed (stone :: visited) (rest ++ l)
      < searchMeasure size seed visited (stone :: rest) := by
  unfold searchMeasure
  have hcard := filter_card_notMem_cons hstone hv
  rw [List.length_append, List.length_cons]
  omega

/-! ## Fold helper lemmas for the `surrounding` accumulator -/

lemma fold_surrounding_inv (stones : Stones) (ns : List Point) (Q : Point × Color → Prop) :
    ∀ (surrounding : Stones),
      (∀ pc ∈ surrounding, Q pc) → (∀ n ∈ ns, Q (n, getStone stones n)) →
      ∀ pc ∈ ns.foldl (fun s n => mapSet s n (getStone stones n)) surrounding, Q pc := by
  induction ns with
  | nil => intro surrounding hsur _ pc hpc; exact hsur pc hpc
  | cons n0 rest ih =>
    intro surrounding hsur hns pc hpc
    refine ih (mapSet surrounding n0 (getStone stones n0)) ?_ ?_ pc hpc
    · intro pc' hpc'
      rcases mem_mapSet hpc' with h | h
      · rw [h]
        exact hns n0 (List.mem_cons_self _ _)
      · exact hsur pc' h
    · intro n hn
      exact hns n (List.mem_cons_of_mem _ hn)

lemma fold_keys_mono (stones : Stones) (ns : List Point) :
    ∀ (surrounding : Stones) (a : Point), a ∈ surrounding.map Prod.fst →
      a ∈ (ns.foldl (fun s n => mapSet s n (getStone stones n)) surrounding).map Prod.fst := by
  induction ns with
  | nil => intro surrounding a ha; exact ha
  | cons n0 rest ih =>
    intro surrounding a ha
    exact ih _ a (mem_keys_mapSet.mpr (Or.inr ha))

lemma fold_keys_mem (stones : Stones) (ns : List Point) :
    ∀ (surrounding : Stones) (n : Point), n ∈ ns →
      n ∈ (ns.foldl (fun s n => mapSet s n (getStone stones n)) surrounding).map Prod.fst := by
  induction ns with
  | nil => intro _ _ h; simp at h
  | cons n0 rest ih =>
    intro surrounding n hn
    rcases List.mem_cons.mp hn with h | h
    · subst h
      exact fold_keys_mono stones rest _ n (mem_keys_mapSet.mpr (Or.inl rfl))
    · exact ih _ n h

lemma fold_keysNodup (stones : Stones) (ns : List Point) :
    ∀ (surrounding : Stones), (surrounding.map Prod.fst).Nodup →
      ((ns.foldl (fun s n => mapSet s n (getStone stones n)) surrounding).map Prod.fst).Nodup := by
  induction ns with
  | nil => intro _ h; exact h
  | cons n0 rest ih =>
    intro surrounding hnd
    exact ih _ (keysNodup_mapSet hnd)

/-! ## Invariant lemmas for `search` -/

lemma search_visited_subset (stones : Stones) (size : Int) (color : Color) :
    ∀ (fuel : Nat) (visited queue : List Point) (surrounding : Stones) (p : Point),
      p ∈ visited → p ∈ (search stones size color fuel visited queue surrounding).1 := by
  intro fuel
  induction fuel with
  | zero =>
    intro visited queue surrounding p hp
    cases queue <;> simpa [search] using hp
  | succ fuel ih =>
    intro visited queue surrounding p hp
    cases queue with
    | nil => simpa [search] using hp
    | cons stone rest =>
      by_cases hv : stone ∈ visited
      · simpa [search, hv] using ih visited rest surrounding p hp
      · simpa [search, hv] using
          ih (stone :: visited) _ _ p (List.mem_cons_of_mem _ hp)

lemma search_queue_subset (stones : Stones) (size : Int) (color : Color) (seed : Point) :
    ∀ (fuel : Nat) (visited queue : List Point) (surrounding : Stones),
      searchMeasure size seed visited queue ≤ fuel →
      (∀ p ∈ queue, inBounds size p ∨ p = seed) →
      ∀ p ∈ queue, p ∈ (search stones size color fuel visited queue surrounding).1 := by
  intro fuel
  induction fuel with
  | zero =>
    intro visited queue surrounding hfuel _ p hp
    have : queue.length = 0 := by
      have := hfuel
      unfold searchMeasure at this
      omega
    rw [List.length_eq_zero] at this
    subst this
    simp at hp
  | succ fuel ih =>
    intro visited queue surrounding hfuel hq p hp
    cases queue with
    | nil => simp at hp
    | cons stone rest =>
      by_cases hv : stone ∈ visited
      · have hfuel' : searchMeasure size seed visited rest ≤ fuel := by
          have := @searchMeasure_skip size seed visited rest stone
          omega
        have hq' : ∀ q ∈ rest, inBounds size q ∨ q = seed :=
          fun q hq' => hq q (List.mem_cons_of_mem _ hq')
        rcases List.mem_cons.mp hp with h | h
        · subst h
          simpa [search, hv] using
            search_visited_subset stones size color fuel visited rest surrounding p hv
        · simpa [search, hv] using ih visited rest surrounding hfuel' hq' p h
      · have habs := @searchMeasure_absorb_lt size seed stone visited rest
          ((getAdjacentIntersections size stone).filter
            (fun n => decide (getStone stones n = color)))
          (hq stone (List.mem_cons_self _ _)) hv
          (le_trans (List.length_filter_le _ _) (length_getAdjacentIntersections size stone))
        have hfuel' : searchMeasure size seed (stone :: visited)
            (rest ++ (getAdjacentIntersections size stone).filter
              (fun n => decide (getStone stones n = color))) ≤ fuel := by omega
        have hq' : ∀ q ∈ rest ++ (getAdjacentIntersections size stone).filter
            (fun n => decide (getStone stones n = color)), inBounds size q ∨ q = seed := by
          intro q hqmem
          rcases List.mem_append.mp hqmem with h | h
          · exact hq q (List.mem_cons_of_mem _ h)
          · exact Or.inl (mem_getAdjacentIntersections (List.mem_of_mem_filter h))
        rcases List.mem_cons.mp hp with h | h
        · subst h
          simpa [search, hv] using
            search_visited_subset stones size color fuel (p :: visited) _ _ p
              (List.mem_cons_self _ _)
        · simpa [search, hv] using ih (stone :: visited) _ _ hfuel' hq' p
            (List.mem_append.mpr (Or.inl h))

lemma search_visited_nodup (stones : Stones) (size : Int) (color : Color) :
    ∀ (fuel : Nat) (visited queue : List Point) (surrounding : Stones),
      visited.Nodup → (search stones size color fuel visited queue surrounding).1.Nodup := by
  intro fuel
  induction fuel with
  | zero =>
    intro visited queue surrounding hnd
    cases queue <;> simpa [search] using hnd
  | succ fuel ih =>
    intro visited queue surrounding hnd
    cases queue with
    | nil => simpa [search] using hnd
    | cons stone rest =>
      by_cases hv : stone ∈ visited
      · simpa [search, hv] using ih visited rest surrounding hnd
      · simpa [search, hv] using ih (stone :: visited) _ _ (List.nodup_cons.mpr ⟨hv, hnd⟩)

lemma search_sound (stones : Stones) (size : Int) (color : Color) (P : Point → Prop)
    (hstep : ∀ p q, P p → q ∈ getAdjacentIntersections size p →
      getStone stones q = color → P q) :
    ∀ (fuel : Nat) (visited queue : List Point) (surrounding : Stones),
      (∀ p ∈ visited, P p) → (∀ p ∈ queue, P p) →
      ∀ p ∈ (search stones size color fuel visited queue surrounding).1, P p := by
  intro fuel
  induction fuel with
  | zero =>
    intro visited queue surrounding hvP _ p hp
    cases queue <;> exact hvP p (by simpa [search] using hp)
  | succ fuel ih =>
    intro visited queue surrounding hvP hqP p hp
    cases queue with
    | nil => exact hvP p (by simpa [search] using hp)
    | cons stone rest =>
      by_cases hv : stone ∈ visited
      · refine ih visited rest surrounding hvP
          (fun q hq => hqP q (List.mem_cons_of_mem _ hq)) p ?_
        simpa [search, hv] using hp
      · refine ih (stone :: visited) _ _ ?_ ?_ p (by simpa [search, hv] using hp)
        · intro q hq
          rcases List.mem_cons.mp hq with h | h
          · subst h
            exact hqP q (List.mem_cons_self _ _)
          · exact hvP q h
        · intro q hq
          rcases List.mem_append.mp hq with h | h
          · exact hqP q (List.mem_cons_of_mem _ h)
          · have hmem := List.mem_of_mem_filter h
            have hcol : getStone stones q = color := by
              have := List.of_mem_filter h
              simpa using this
            exact hstep stone q (hqP stone (List.mem_cons_self _ _)) hmem hcol

lemma search_closed (stones : Stones) (size : Int) (color : Color) (seed : Point) :
    ∀ (fuel : Nat) (visited queue : List Point) (surrounding : Stones),
      searchMeasure size seed visited queue ≤ fuel →
      (∀ p ∈ queue, inBounds size p ∨ p = seed) →
      (∀ m ∈ visited, ∀ n ∈ getAdjacentIntersections size m,
        getStone stones n = color → n ∈ visited ∨ n ∈ queue) →
      ∀ m ∈ (search stones size color fuel visited queue surrounding).1,
        ∀ n ∈ getAdjacentIntersections size m, getStone stones n = color →
          n ∈ (search stones size color fuel visited queue surrounding).1 := by
  intro fuel
  induction fuel with
  | zero =>
    intro visited queue surrounding hfuel _ hinv m hm n hn hcol
    have hq0 : queue.length = 0 := by
      unfold searchMeasure at hfuel
      omega
    rw [List.length_eq_zero] at hq0
    subst hq0
    simp only [search] at hm ⊢
    rcases hinv m hm n hn hcol with h | h
    · exact h
    · simp at h
  | succ fuel ih =>
    intro visited queue surrounding hfuel hq hinv m hm n hn hcol
    cases queue with
    | nil =>
      simp only [search] at hm ⊢
      rcases hinv m hm n hn hcol with h | h
      · exact h
      · simp at h
    | cons stone rest =>
      by_cases hv : stone ∈ visited
      · have hfuel' : searchMeasure size seed visited rest ≤ fuel := by
          have := @searchMeasure_skip size seed visited rest stone
          omega
        have hq' : ∀ q ∈ rest, inBounds size q ∨ q = seed :=
          fun q hq' => hq q (List.mem_cons_of_mem _ hq')
        have hinv' : ∀ m ∈ visited, ∀ n ∈ getAdjacentIntersections size m,
            getStone stones n = color → n ∈ visited ∨ n ∈ rest := by
          intro m' hm' n' hn' hcol'
          rcases hinv m' hm' n' hn' hcol' with h | h
          · exact Or.inl h
          · rcases List.mem_cons.mp h with h | h
            · subst h
              exact Or.inl hv
            · exact Or.inr h
        have := ih visited rest surrounding hfuel' hq' hinv' m
          (by simpa [search, hv] using hm) n hn hcol
        simpa [search, hv] using this
      · have habs := @searchMeasure_absorb_lt size seed stone visited rest
          ((getAdjacentIntersections size stone).filter
            (fun n => decide (getStone stones n = color)))
          (hq stone (List.mem_cons_self _ _)) hv
          (le_trans (List.length_filter_le _ _) (length_getAdjacentIntersections size stone))
        have hfuel' : searchMeasure size seed (stone :: visited)
            (rest ++ (getAdjacentIntersections size stone).filter
              (fun n => decide (getStone stones n = color))) ≤ fuel := by omega
        have hq' : ∀ q ∈ rest ++ (getAdjacentIntersections size stone).filter
            (fun n => decide (getStone stones n = color)), inBounds size q ∨ q = seed := by
          intro q hqmem
          rcases List.mem_append.mp hqmem with h | h
          · exact hq q (List.mem_cons_of_mem _ h)
          · exact Or.inl (mem_getAdjacentIntersections (List.mem_of_mem_filter h))
        have hinv' : ∀ m ∈ stone :: visited, ∀ n ∈ getAdjacentIntersections size m,
            getStone stones n = color →
            n ∈ stone :: visited ∨ n ∈ rest ++ (getAdjacentIntersections size stone).filter
              (fun n => decide (getStone stones n = color)) := by
          intro m' hm' n' hn' hcol'
          rcases List.mem_cons.mp hm' with h | h
          · subst h
            refine Or.inr (List.mem_append.mpr (Or.inr ?_))
            exact List.mem_filter.mpr ⟨hn', by simpa using hcol'⟩
          · rcases hinv m' h n' hn' hcol' with h2 | h2
            · exact Or.inl (List.mem_cons_of_mem _ h2)
            · rcases List.mem_cons.mp h2 with h3 | h3
              · subst h3
                exact Or.inl (List.mem_cons_self _ _)
              · exact Or.inr (List.mem_append.mpr (Or.inl h3))
        have := ih (stone :: visited) _ _ hfuel' hq' hinv' m
          (by simpa [search, hv] using hm) n hn hcol
        simpa [search, hv] using this

lemma search_surrounding_sound (stones : Stones) (size : Int) (color : Color) :
    ∀ (fuel : Nat) (visited queue : List Point) (surrounding : Stones),
      (∀ pc ∈ surrounding, pc.2 = getStone stones pc.1 ∧ pc.2 ≠ color ∧
        ∃ m ∈ visited, pc.1 ∈ getAdjacentIntersections size m) →
      ∀ pc ∈ (search stones size color fuel visited queue surrounding).2,
        pc.2 = getStone stones pc.1 ∧ pc.2 ≠ color ∧
        ∃ m ∈ (search stones size color fuel visited queue surrounding).1,
          pc.1 ∈ getAdjacentIntersections size m := by
  intro fuel
  induction fuel with
  | zero =>
    intro visited queue surrounding hsur pc hpc
    cases queue <;>
      exact
        let h := hsur pc (by simpa [search] using hpc)
        ⟨h.1, h.2.1, by
          obtain ⟨m, hm, hadj⟩ := h.2.2
          exact ⟨m, by simpa [search] using hm, hadj⟩⟩
  | succ fuel ih =>
    intro visited queue surrounding hsur pc hpc
    cases queue with
    | nil =>
      exact
        let h := hsur pc (by simpa [search] using hpc)
        ⟨h.1, h.2.1, by
          obtain ⟨m, hm, hadj⟩ := h.2.2
          exact ⟨m, by simpa [search] using hm, hadj⟩⟩
    | cons stone rest =>
      by_cases hv : stone ∈ visited
      · have := ih visited rest surrounding hsur pc (by simpa [search, hv] using hpc)
        refine ⟨this.1, this.2.1, ?_⟩
        obtain ⟨m, hm, hadj⟩ := this.2.2
        exact ⟨m, by simpa [search, hv] using hm, hadj⟩
      · have hsur' : ∀ pc ∈ (((getAdjacentIntersections size stone).filter
            (fun n => decide (getStone stones n ≠ color))).foldl
              (fun s n => mapSet s n (getStone stones n)) surrounding),
            pc.2 = getStone stones pc.1 ∧ pc.2 ≠ color ∧
            ∃ m ∈ stone :: visited, pc.1 ∈ getAdjacentIntersections size m := by
          refine fold_surrounding_inv stones _ _ surrounding ?_ ?_
          · intro pc' hpc'
            obtain ⟨h1, h2, m, hm, hadj⟩ := hsur pc' hpc'
            exact ⟨h1, h2, m, List.mem_cons_of_mem _ hm, hadj⟩
          · intro n hn
            refine ⟨rfl, ?_, stone, List.mem_cons_self _ _, List.mem_of_mem_filter hn⟩
            have := List.of_mem_filter hn
            simpa using this
        have := ih (stone :: visited) _ _ hsur' pc (by simpa [search, hv] using hpc)
        refine ⟨this.1, this.2.1, ?_⟩
        obtain ⟨m, hm, hadj⟩ := this.2.2
        exact ⟨m, by simpa [search, hv] using hm, hadj⟩

lemma search_surrounding_complete (stones : Stones) (size : Int) (color : Color) (seed : Point) :
    ∀ (fuel : Nat) (visited queue : List Point) (surrounding : Stones),
      searchMeasure size seed visited queue ≤ fuel →
      (∀ p ∈ queue, inBounds size p ∨ p = seed) →
      (∀ m ∈ visited, ∀ n ∈ getAdjacentIntersections size m,
        getStone stones n ≠ color → n ∈ surrounding.map Prod.fst) →
      ∀ m ∈ (search stones size color fuel visited queue surrounding).1,
        ∀ n ∈ getAdjacentIntersections size m, getStone stones n ≠ color →
          n ∈ (search stones size color fuel visited queue surrounding).2.map Prod.fst := by
  intro fuel
  induction fuel with
  | zero =>
    intro visited queue surrounding hfuel _ hinv m hm n hn hcol
    have hq0 : queue.length = 0 := by
      unfold searchMeasure at hfuel
      omega
    rw [List.length_eq_zero] at hq0
    subst hq0
    simp only [search] at hm ⊢
    exact hinv m hm n hn hcol
  | succ fuel ih =>
    intro visited queue surrounding hfuel hq hinv m hm n hn hcol
    cases queue with
    | nil =>
      simp only [search] at hm ⊢
      exact hinv m hm n hn hcol
    | cons stone rest =>
      by_cases hv : stone ∈ visited
      · have hfuel' : searchMeasure size seed visited rest ≤ fuel := by
          have := @searchMeasure_skip size seed visited rest stone
          omega
        have := ih visited rest surrounding hfuel'
          (fun q hq' => hq q (List.mem_cons_of_mem _ hq')) hinv m
          (by simpa [search, hv] using hm) n hn hcol
        simpa [search, hv] using this
      · have habs := @searchMeasure_absorb_lt size seed stone visited rest
          ((getAdjacentIntersections size stone).filter
            (fun n => decide (getStone stones n = color)))
          (hq stone (List.mem_cons_self _ _)) hv
          (le_trans (List.length_filter_le _ _) (length_getAdjacentIntersections size stone))
        have hfuel' : searchMeasure size seed (stone :: visited)
            (rest ++ (getAdjacentIntersections size stone).filter
              (fun n => decide (getStone stones n = color))) ≤ fuel := by omega
        have hq' : ∀ q ∈ rest ++ (getAdjacentIntersections size stone).filter
            (fun n => decide (getStone stones n = color)), inBounds size q ∨ q = seed := by
          intro q hqmem
          rcases List.mem_append.mp hqmem with h | h
          · exact hq q (List.mem_cons_of_mem _ h)
          · exact Or.inl (mem_getAdjacentIntersections (List.mem_of_mem_filter h))
        have hinv' : ∀ m ∈ stone :: visited, ∀ n ∈ getAdjacentIntersections size m,
            getStone stones n ≠ color →
            n ∈ (((getAdjacentIntersections size stone).filter
              (fun n => decide (getStone stones n ≠ color))).foldl
                (fun s n => mapSet s n (getStone stones n)) surrounding).map Prod.fst := by
          intro m' hm' n' hn' hcol'
          rcases List.mem_cons.mp hm' with h | h
          · subst h
            refine fold_keys_mem stones _ surrounding n' ?_
            exact List.mem_filter.mpr ⟨hn', by simpa using hcol'⟩
          · exact fold_keys_mono stones _ surrounding n' (hinv m' h n' hn' hcol')
        have := ih (stone :: visited) _ _ hfuel' hq' hinv' m
          (by simpa [search, hv] using hm) n hn hcol
        simpa [search, hv] using this

lemma search_surrounding_keysNodup (stones : Stones) (size : Int) (color : Color) :
    ∀ (fuel : Nat) (visited queue : List Point) (surrounding : Stones),
      (surrounding.map Prod.fst).Nodup →
      ((search stones size color fuel visited queue surrounding).2.map Prod.fst).Nodup := by
  intro fuel
  induction fuel with
  | zero =>
    intro visited queue surrounding hnd
    cases queue <;> simpa [search] using hnd
  | succ fuel ih =>
    intro visited queue surrounding hnd
    cases queue with
    | nil => simpa [search] using hnd
    | cons stone rest =>
      by_cases hv : stone ∈ visited
      · simpa [search, hv] using ih visited rest surrounding hnd
      · simpa [search, hv] using ih (stone :: visited) _ _ (fold_keysNodup stones _ _ hnd)

/-- Any fuel at least `searchMeasure` produces the same result: the fuel
argument of `search` is only a termination device and never alters the
semantics of the source recursion. -/
lemma search_fuel_irrelevant (stones : Stones) (size : Int) (color : Color) (seed : Point) :
    ∀ (fuel fuel' : Nat) (visited queue : List Point) (surrounding : Stones),
      searchMeasure size seed visited queue ≤ fuel →
      searchMeasure size seed visited queue ≤ fuel' →
      (∀ p ∈ queue, inBounds size p ∨ p = seed) →
      search stones size color fuel visited queue surrounding
        = search stones size color fuel' visited queue surrounding := by
  intro fuel
  induction fuel with
  | zero =>
    intro fuel' visited queue surrounding hfuel _ _
    have hq0 : queue.length = 0 := by
      unfold searchMeasure at hfuel
      omega
    rw [List.length_eq_zero] at hq0
    subst hq0
    cases fuel' <;> simp [search]
  | succ fuel ih =>
    intro fuel' visited queue surrounding hfuel hfuel' hq
    cases queue with
    | nil => cases fuel' <;> simp [search]
    | cons stone rest =>
      cases fuel' with
      | zero =>
        exfalso
        unfold searchMeasure at hfuel'
        simp only [List.length_cons] at hfuel'
        omega
      | succ fuel'' =>
        by_cases hv : stone ∈ visited
        · have hskip := @searchMeasure_skip size seed visited rest stone
          have := ih fuel'' visited rest surrounding (by omega) (by omega)
            (fun q hq' => hq q (List.mem_cons_of_mem _ hq'))
          simpa [search, hv] using this
        · have habs := @searchMeasure_absorb_lt size seed stone visited rest
            ((getAdjacentIntersections size stone).filter
              (fun n => decide (getStone stones n = color)))
            (hq stone (List.mem_cons_self _ _)) hv
            (le_trans (List.length_filter_le _ _) (length_getAdjacentIntersections size stone))
          have hq' : ∀ q ∈ rest ++ (getAdjacentIntersections size stone).filter
              (fun n => decide (getStone stones n = color)), inBounds size q ∨ q = seed := by
            intro q hqmem
            rcases List.mem_append.mp hqmem with h | h
            · exact hq q (List.mem_cons_of_mem _ h)
            · exact Or.inl (mem_getAdjacentIntersections (List.mem_of_mem_filter h))
          have := ih fuel'' (stone :: visited)
            (rest ++ (getAdjacentIntersections size stone).filter
              (fun n => decide (getStone stones n = color)))
            (((getAdjacentIntersections size stone).filter
              (fun n => decide (getStone stones n ≠ color))).foldl
                (fun s n => mapSet s n (getStone stones n)) surrounding)
            (by omega) (by omega) hq'
          simpa [search, hv] using this

/-! ## Corollaries about `getGroup` -/

lemma getGroup_initial_queue_ok (size : Int) (coords : Point) :
    ∀ p ∈ [coords], inBounds size p ∨ p = coords :=
  fun p hp => Or.inr (List.mem_singleton.mp hp)

lemma getGroup_seed_mem (stones : Stones) (size : Int) (coords : Point) :
    coords ∈ (getGroup stones size coords).stones := by
  unfold getGroup
  exact search_queue_subset stones size (getStone stones coords) coords _ [] [coords] []
    le_rfl (getGroup_initial_queue_ok size coords) coords (List.mem_singleton.mpr rfl)

lemma getGroup_stones_color (stones : Stones) (size : Int) (coords : Point) :
    ∀ q ∈ (getGroup stones size coords).stones,
      getStone stones q = getStone stones coords := by
  unfold getGroup
  refine search_sound stones size (getStone stones coords)
    (fun q => getStone stones q = getStone stones coords)
    (fun p q _ _ hcol => hcol) _ [] [coords] [] (by simp) ?_
  intro p hp
  rw [List.mem_singleton.mp hp]

lemma getGroup_stones_inBounds (stones : Stones) (size : Int) (coords : Point) :
    ∀ q ∈ (getGroup stones size coords).stones, inBounds size q ∨ q = coords := by
  unfold getGroup
  refine search_sound stones size (getStone stones coords)
    (fun q => inBounds size q ∨ q = coords)
    (fun p q _ hadj _ => Or.inl (mem_getAdjacentIntersections hadj)) _ [] [coords] []
    (by simp) ?_
  intro p hp
  exact Or.inr (List.mem_singleton.mp hp)

lemma getGroup_stones_nodup (stones : Stones) (size : Int) (coords : Point) :
    (getGroup stones size coords).stones.Nodup := by
  unfold getGroup
  exact search_visited_nodup stones size (getStone stones coords) _ [] [coords] [] List.nodup_nil

lemma getGroup_closed (stones : Stones) (size : Int) (coords : Point) :
    ∀ m ∈ (getGroup stones size coords).stones,
      ∀ n ∈ getAdjacentIntersections size m,
        getStone stones n = getStone stones coords →
          n ∈ (getGroup stones size coords).stones := by
  unfold getGroup
  exact search_closed stones size (getStone stones coords) coords _ [] [coords] []
    le_rfl (getGroup_initial_queue_ok size coords) (by simp)

lemma getGroup_stones_sound (stones : Stones) (size : Int) (coords : Point) :
    ∀ q ∈ (getGroup stones size coords).stones,
      reachesFrom stones size (getStone stones coords) coords q := by
  unfold getGroup
  refine search_sound stones size (getStone stones coords)
    (reachesFrom stones size (getStone stones coords) coords)
    (fun p q hp hadj hcol => Relation.ReflTransGen.tail hp ⟨hadj, hcol⟩) _ [] [coords] []
    (by simp) ?_
  intro p hp
  rw [List.mem_singleton.mp hp]
  exact Relation.ReflTransGen.refl

/-- Membership in `getGroup(...).stones` is exactly same-color
connectivity from the seed. -/
lemma getGroup_stones_iff (stones : Stones) (size : Int) (coords : Point) (q : Point) :
    q ∈ (getGroup stones size coords).stones ↔
      reachesFrom stones size (getStone stones coords) coords q := by
  constructor
  · exact getGroup_stones_sound stones size coords q
  · intro h
    induction h with
    | refl => exact getGroup_seed_mem stones size coords
    | tail hab hstep ih => exact getGroup_closed stones size coords _ ih _ hstep.1 hstep.2

lemma getGroup_surrounding_keysNodup (stones : Stones) (size : Int) (coords : Point) :
    ((getGroup stones size coords).surrounding.map Prod.fst).Nodup := by
  unfold getGroup
  exact search_surrounding_keysNodup stones size (getStone stones coords) _ [] [coords] []
    (by simp)

/-- An entry `(n, c)` is recorded in a group's `surrounding` exactly when
`n` is an in-bounds neighbor of some group member whose color `c`
differs from the group's color. -/
lemma getGroup_surrounding_mem_iff (stones : Stones) (size : Int) (coords : Point)
    (n : Point) (c : Color) :
    (n, c) ∈ (getGroup stones size coords).surrounding ↔
      (c = getStone stones n ∧ c ≠ getStone stones coords ∧
        ∃ m ∈ (getGroup stones size coords).stones,
          n ∈ getAdjacentIntersections size m) := by
  constructor
  · intro h
    have hsound := search_surrounding_sound stones size (getStone stones coords) _ [] [coords] []
      (by simp) (n, c) (by exact h)
    exact hsound
  · rintro ⟨hc, hne, m, hm, hadj⟩
    have hkey : n ∈ (getGroup stones size coords).surrounding.map Prod.fst := by
      unfold getGroup at hm ⊢
      refine search_surrounding_complete stones size (getStone stones coords) coords _
        [] [coords] [] le_rfl (getGroup_initial_queue_ok size coords) (by simp) m hm n hadj ?_
      rw [← hc]
      exact fun hcc => hne hcc
    rcases List.mem_map.mp hkey with ⟨⟨n', c'⟩, hmem, hn'⟩
    have hn2 : n' = n := hn'
    subst hn2
    have hsound := search_surrounding_sound stones size (getStone stones coords) _ [] [coords] []
      (by simp) (n', c') (by exact hmem)
    have hcc : c' = c := by
      have h1 : c' = getStone stones n' := hsound.1
      rw [h1, hc]
    rwa [← hcc]

/-! ## Case analysis of `play` -/

lemma play_oob {b : Board} {color : Color} {coords : Point}
    (hin : ¬ inBounds b.size coords) :
    play b color coords = .error "Intersection out of bounds" := by
  unfold play
  rw [if_pos hin]

lemma play_occupied {b : Board} {color : Color} {coords : Point}
    (hin : inBounds b.size coords) (hocc : getStone b.stones coords ≠ Color.EMPTY) :
    play b color coords = .error "Intersection occupied by existing stone" := by
  unfold play
  rw [if_neg (not_not_intro hin), if_pos hocc]

lemma play_eq_of_legal {b : Board} {color : Color} {coords : Point}
    (hin : inBounds b.size coords) (hocc : getStone b.stones coords = Color.EMPTY) :
    play b color coords = .ok
      { size := b.size
        stones := removeStones (replaceStone b.stones coords color)
          ((finalCaptured (replaceStone b.stones coords color) b.size color coords).flatMap
            (fun g => g.stones)) } := by
  unfold play
  rw [if_neg (not_not_intro hin), if_neg (fun h => h hocc)]
  unfold createBoard
  rw [if_neg ?hc]
  · rfl
  case hc =>
    rcases hin with ⟨h1, h2, h3, h4⟩
    simp
    omega

/-! ## Claim C3 -/

/-- C3: `play` raises OutOfBounds exactly on out-of-bounds coordinates,
IntersectionOccupied exactly on occupied in-bounds coordinates, these
are the only errors, and a move succeeds exactly on an in-bounds empty
intersection (on failure no board is produced; the input board value is
untouched, the embedding being purely functional). -/
theorem c3_play_error_exactness (b : Board) (color : Color) (coords : Point) :
    (play b color coords = Except.error "Intersection out of bounds" ↔
      ¬ inBounds b.size coords) ∧
    (play b color coords = Except.error "Intersection occupied by existing stone" ↔
      (inBounds b.size coords ∧ getStone b.stones coords ≠ Color.EMPTY)) ∧
    (∀ e, play b color coords = Except.error e →
      e = "Intersection out of bounds" ∨ e = "Intersection occupied by existing stone") ∧
    ((∃ b', play b color coords = Except.ok b') ↔
      (inBounds b.size coords ∧ getStone b.stones coords = Color.EMPTY)) := by
  by_cases hin : inBounds b.size coords
  · by_cases hocc : getStone b.stones coords = Color.EMPTY
    · have hok := @play_eq_of_legal b color coords hin hocc
      refine ⟨?_, ?_, ?_, ?_⟩
      · rw [hok]
        simp [hin]
      · rw [hok]
        simp [hocc]
      · intro e he
        rw [hok] at he
        exact absurd he (by simp)
      · exact ⟨fun _ => ⟨hin, hocc⟩, fun _ => ⟨_, hok⟩⟩
    · have herr := @play_occupied b color coords hin hocc
      refine ⟨?_, ?_, ?_, ?_⟩
      · rw [herr]
        constructor
        · intro h
          exact absurd (Except.error.inj h) (by decide)
        · intro h
          exact absurd hin h
      · rw [herr]
        simp [hin, hocc]
      · intro e he
        rw [herr] at he
        exact Or.inr (Except.error.inj he).symm
      · constructor
        · rintro ⟨b', hb'⟩
          rw [herr] at hb'
          exact absurd hb' (by simp)
        · rintro ⟨_, h⟩
          exact absurd h hocc
  · have herr := @play_oob b color coords hin
    refine ⟨?_, ?_, ?_, ?_⟩
    · rw [herr]
      simp [hin]
    · rw [herr]
      constructor
      · intro h
        exact absurd (Except.error.inj h) (by decide)
      · rintro ⟨h, _⟩
        exact absurd h hin
    · intro e he
      rw [herr] at he
      exact Or.inl (Except.error.inj he).symm
    · constructor
      · rintro ⟨b', hb'⟩
        rw [herr] at hb'
        exact absurd hb' (by simp)
      · rintro ⟨h, _⟩
        exact absurd h hin

/-- C3 witness: a concrete out-of-bounds rejection and a concrete
occupied rejection, obtained through `c3_play_error_exactness`. -/
theorem c3_play_error_exactness_witness :
    play ⟨2, []⟩ Color.BLACK ⟨5, 5⟩ = Except.error "Intersection out of bounds" ∧
    play ⟨2, [(⟨0, 0⟩, Color.BLACK)]⟩ Color.WHITE ⟨0, 0⟩ =
      Except.error "Intersection occupied by existing stone" := by
  have h1 := c3_play_error_exactness ⟨2, []⟩ Color.BLACK ⟨5, 5⟩
  have h2 := c3_play_error_exactness ⟨2, [(⟨0, 0⟩, Color.BLACK)]⟩ Color.WHITE ⟨0, 0⟩
  exact ⟨h1.1.mpr (by decide), h2.2.1.mpr (by decide)⟩

/-! ## Claim C9 -/

/-- C9: `createBoard` fails exactly when `size` is missing (`undefined`)
or negative; size zero is accepted and yields the degenerate empty
board. -/
theorem c9_createBoard_invalid_size (size : Option Int) (stones : Option Stones) :
    ((∃ e, createBoard size stones = Except.error e) ↔
      (size = none ∨ ∃ v, size = some v ∧ v < 0)) ∧
    createBoard (some 0) none = Except.ok { size := 0, stones := [] } := by
  constructor
  · unfold createBoard
    by_cases h : size = none ∨ size.getD 0 < 0
    · rw [if_pos h]
      refine ⟨fun _ => ?_, fun _ => ⟨_, rfl⟩⟩
      cases size with
      | none => exact Or.inl rfl
      | some v =>
        rcases h with h | h
        · exact absurd h (by simp)
        · exact Or.inr ⟨v, rfl, by simpa using h⟩
    · rw [if_neg h]
      constructor
      · rintro ⟨e, he⟩
        exact absurd he (by simp)
      · intro hcase
        exfalso
        apply h
        rcases hcase with h1 | ⟨v, hv, hneg⟩
        · exact Or.inl h1
        · subst hv
          exact Or.inr (by simpa using hneg)
  · rfl

/-- C9 witness: missing size and negative size are rejected, size zero
is accepted, via `c9_createBoard_invalid_size`. -/
theorem c9_createBoard_invalid_size_witness :
    (∃ e, createBoard none none = Except.error e) ∧
    (∃ e, createBoard (some (-3)) none = Except.error e) ∧
    createBoard (some 0) none = Except.ok { size := 0, stones := [] } := by
  have h1 := c9_createBoard_invalid_size none none
  have h2 := c9_createBoard_invalid_size (some (-3)) none
  exact ⟨h1.1.mpr (Or.inl rfl), h2.1.mpr (Or.inr ⟨-3, rfl, by decide⟩), h2.2⟩

/-! ## Claim C10 -/

/-- C10: `Board.getStone` is total — no bounds check is performed, any
coordinate absent from the stones mapping (out of bounds or not) reads
as EMPTY, and an out-of-bounds query is indistinguishable from an empty
in-bounds intersection. -/
theorem c10_getStone_total_no_bounds_check (b : Board) (p q : Point) :
    (mapGet b.stones p = none → Board.getStone b p = Color.EMPTY) ∧
    (mapGet b.stones p = none → mapGet b.stones q = none →
      Board.getStone b p = Board.getStone b q) := by
  constructor
  · intro h
    unfold Board.getStone getStone
    rw [h]
    rfl
  · intro hp hq
    unfold Board.getStone getStone
    rw [hp, hq]

/-- C10 witness: on a 2×2 board holding one black stone, the
out-of-bounds query `(-3, 7)` and the empty in-bounds query `(0, 1)`
both read EMPTY, via `c10_getStone_total_no_bounds_check`. -/
theorem c10_getStone_total_no_bounds_check_witness :
    mapGet [(⟨0, 0⟩, Color.BLACK)] ⟨-3, 7⟩ = none ∧
    mapGet [(⟨0, 0⟩, Color.BLACK)] ⟨0, 1⟩ = none ∧
    Board.getStone ⟨2, [(⟨0, 0⟩, Color.BLACK)]⟩ ⟨-3, 7⟩ = Color.EMPTY ∧
    Board.getStone ⟨2, [(⟨0, 0⟩, Color.BLACK)]⟩ ⟨-3, 7⟩ =
      Board.getStone ⟨2, [(⟨0, 0⟩, Color.BLACK)]⟩ ⟨0, 1⟩ := by
  have h := c10_getStone_total_no_bounds_check ⟨2, [(⟨0, 0⟩, Color.BLACK)]⟩ ⟨-3, 7⟩ ⟨0, 1⟩
  exact ⟨by decide, by decide, h.1 (by decide), h.2 (by decide) (by decide)⟩

/-! ## Claim C8 -/

/-- C8: for a stone seed, every group member holds the seed's color, the
group is connected to the seed by orthogonal same-color steps and
contains it, no in-bounds point adjacent to a member outside the group
holds that color (maximality), and `liberties` equals the number of
distinct EMPTY coordinates recorded in `surrounding`. -/
theorem c8_group_closure (b : Board) (c : Point) (C : Color)
    (hin : inBounds b.size c) (hcol : getStone b.stones c = C) (hC : C ≠ Color.EMPTY) :
    (∀ q ∈ (getGroup b.stones b.size c).stones, getStone b.stones q = C) ∧
    c ∈ (getGroup b.stones b.size c).stones ∧
    (∀ q ∈ (getGroup b.stones b.size c).stones, reachesFrom b.stones b.size C c q) ∧
    (∀ m ∈ (getGroup b.stones b.size c).stones,
      ∀ n ∈ getAdjacentIntersections b.size m,
        n ∉ (getGroup b.stones b.size c).stones → getStone b.stones n ≠ C) ∧
    (getGroup b.stones b.size c).liberties =
      (((getGroup b.stones b.size c).surrounding.filter
        (fun pc => decide (pc.2 = Color.EMPTY))).map Prod.fst).dedup.length := by
  refine ⟨?_, getGroup_seed_mem b.stones b.size c, ?_, ?_, ?_⟩
  · intro q hq
    rw [getGroup_stones_color b.stones b.size c q hq, hcol]
  · intro q hq
    have := getGroup_stones_sound b.stones b.size c q hq
    rwa [hcol] at this
  · intro m hm n hn hnot hcoln
    exact hnot (getGroup_closed b.stones b.size c m hm n hn (by rw [hcoln, hcol]))
  · have hnd : (((getGroup b.stones b.size c).surrounding.filter
        (fun pc => decide (pc.2 = Color.EMPTY))).map Prod.fst).Nodup := by
      have hsub : ((getGroup b.stones b.size c).surrounding.filter
          (fun pc => decide (pc.2 = Color.EMPTY))).map Prod.fst |>.Sublist
          ((getGroup b.stones b.size c).surrounding.map Prod.fst) :=
        (List.filter_sublist _).map Prod.fst
      exact (getGroup_surrounding_keysNodup b.stones b.size c).sublist hsub
    rw [List.dedup_eq_self.mpr hnd, List.length_map]
    rfl

/-- C8 witness: a two-stone black group on a 2×2 board with a white
stone, checked through `c8_group_closure`. -/
theorem c8_group_closure_witness :
    inBounds 2 (⟨0, 0⟩ : Point) ∧
    getStone [(⟨0, 0⟩, Color.BLACK), (⟨0, 1⟩, Color.BLACK), (⟨1, 1⟩, Color.WHITE)]
      ⟨0, 0⟩ = Color.BLACK ∧
    Color.BLACK ≠ Color.EMPTY ∧
    ((∀ q ∈ (getGroup [(⟨0, 0⟩, Color.BLACK), (⟨0, 1⟩, Color.BLACK), (⟨1, 1⟩, Color.WHITE)]
        2 ⟨0, 0⟩).stones,
      getStone [(⟨0, 0⟩, Color.BLACK), (⟨0, 1⟩, Color.BLACK), (⟨1, 1⟩, Color.WHITE)] q
        = Color.BLACK) ∧
    ⟨0, 0⟩ ∈ (getGroup [(⟨0, 0⟩, Color.BLACK), (⟨0, 1⟩, Color.BLACK), (⟨1, 1⟩, Color.WHITE)]
        2 ⟨0, 0⟩).stones ∧
    (∀ q ∈ (getGroup [(⟨0, 0⟩, Color.BLACK), (⟨0, 1⟩, Color.BLACK), (⟨1, 1⟩, Color.WHITE)]
        2 ⟨0, 0⟩).stones,
      reachesFrom [(⟨0, 0⟩, Color.BLACK), (⟨0, 1⟩, Color.BLACK), (⟨1, 1⟩, Color.WHITE)]
        2 Color.BLACK ⟨0, 0⟩ q) ∧
    (∀ m ∈ (getGroup [(⟨0, 0⟩, Color.BLACK), (⟨0, 1⟩, Color.BLACK), (⟨1, 1⟩, Color.WHITE)]
        2 ⟨0, 0⟩).stones,
      ∀ n ∈ getAdjacentIntersections 2 m,
        n ∉ (getGroup [(⟨0, 0⟩, Color.BLACK), (⟨0, 1⟩, Color.BLACK), (⟨1, 1⟩, Color.WHITE)]
          2 ⟨0, 0⟩).stones →
        getStone [(⟨0, 0⟩, Color.BLACK), (⟨0, 1⟩, Color.BLACK), (⟨1, 1⟩, Color.WHITE)] n
          ≠ Color.BLACK) ∧
    (getGroup [(⟨0, 0⟩, Color.BLACK), (⟨0, 1⟩, Color.BLACK), (⟨1, 1⟩, Color.WHITE)]
        2 ⟨0, 0⟩).liberties =
      (((getGroup [(⟨0, 0⟩, Color.BLACK), (⟨0, 1⟩, Color.BLACK), (⟨1, 1⟩, Color.WHITE)]
        2 ⟨0, 0⟩).surrounding.filter
          (fun pc => decide (pc.2 = Color.EMPTY))).map Prod.fst).dedup.length) :=
  ⟨by decide, by decide, by decide,
    c8_group_closure ⟨2, [(⟨0, 0⟩, Color.BLACK), (⟨0, 1⟩, Color.BLACK), (⟨1, 1⟩, Color.WHITE)]⟩
      ⟨0, 0⟩ Color.BLACK (by decide) (by decide) (by decide)⟩

/-! ## Structure of the capture set -/

lemma mem_capturedFromNeighbors {stones : Stones} {size : Int} {color : Color} {coords : Point}
    {g : Group} (hg : g ∈ capturedFromNeighbors stones size color coords) :
    g.liberties = 0 ∧ ∃ n ∈ getAdjacentIntersections size coords,
      getStone stones n ≠ color ∧ getStone stones n ≠ Color.EMPTY ∧
      g = getGroup stones size n := by
  unfold capturedFromNeighbors at hg
  rw [List.mem_filter] at hg
  obtain ⟨hmem, hdead⟩ := hg
  rw [List.mem_map] at hmem
  obtain ⟨nc, hnc, rfl⟩ := hmem
  rw [List.mem_filter] at hnc
  obtain ⟨hncmem, hopp⟩ := hnc
  rw [List.mem_map] at hncmem
  obtain ⟨n, hn, rfl⟩ := hncmem
  simp only [decide_eq_true_eq] at hopp hdead
  exact ⟨hdead, n, hn, hopp.1, hopp.2, rfl⟩

lemma capturedFromNeighbors_stones_opponent {stones : Stones} {size : Int} {color : Color}
    {coords : Point} {g : Group} (hg : g ∈ capturedFromNeighbors stones size color coords) :
    ∀ q ∈ g.stones, getStone stones q ≠ color ∧ getStone stones q ≠ Color.EMPTY := by
  obtain ⟨-, n, -, hncol, hnem, rfl⟩ := mem_capturedFromNeighbors hg
  intro q hq
  rw [getGroup_stones_color stones size n q hq]
  exact ⟨hncol, hnem⟩

/-! ## Claim C1 -/

/-- C1: when the tentative stone leaves at least one adjacent opponent
group dead, `play` succeeds and returns a board in which exactly the
stones of the dead adjacent opponent groups (which held the opponent's
color in the original board) have become EMPTY; the new stone at `p`
remains, and every other intersection is unchanged. -/
theorem c1_capture_removes_exactly_dead_groups (b : Board) (color : Color) (p : Point)
    (hin : inBounds b.size p) (hempty : getStone b.stones p = Color.EMPTY)
    (hcap : capturedFromNeighbors (replaceStone b.stones p color) b.size color p ≠ []) :
    ∃ b', play b color p = Except.ok b' ∧
      (∀ q, (∃ g ∈ capturedFromNeighbors (replaceStone b.stones p color) b.size color p,
          q ∈ g.stones) →
        getStone b'.stones q = Color.EMPTY ∧
        getStone b.stones q ≠ color ∧ getStone b.stones q ≠ Color.EMPTY) ∧
      getStone b'.stones p = color ∧
      (∀ q, q ≠ p →
        (∀ g ∈ capturedFromNeighbors (replaceStone b.stones p color) b.size color p,
          q ∉ g.stones) →
        getStone b'.stones q = getStone b.stones q) := by
  have hok := @play_eq_of_legal b color p hin hempty
  have hfc : finalCaptured (replaceStone b.stones p color) b.size color p
      = capturedFromNeighbors (replaceStone b.stones p color) b.size color p := by
    unfold finalCaptured
    rw [if_neg (fun hand => hcap hand.1)]
  refine ⟨_, hok, ?_, ?_, ?_⟩
  · rintro q ⟨g, hg, hq⟩
    have hopp := capturedFromNeighbors_stones_opponent hg q hq
    have hqp : q ≠ p := by
      intro heq
      rw [heq, getStone_replaceStone_self] at hopp
      exact hopp.1 rfl
    have hTq : getStone (replaceStone b.stones p color) q = getStone b.stones q :=
      getStone_replaceStone_ne b.stones color hqp
    refine ⟨?_, by rw [← hTq]; exact hopp.1, by rw [← hTq]; exact hopp.2⟩
    show getStone (removeStones (replaceStone b.stones p color) _) q = Color.EMPTY
    rw [getStone_removeStones, if_pos]
    rw [hfc]
    exact List.mem_flatMap.mpr ⟨g, hg, hq⟩
  · show getStone (removeStones (replaceStone b.stones p color) _) p = color
    rw [getStone_removeStones, if_neg, getStone_replaceStone_self]
    rw [hfc]
    intro hmem
    obtain ⟨g, hg, hp⟩ := List.mem_flatMap.mp hmem
    exact (capturedFromNeighbors_stones_opponent hg p hp).1 (getStone_replaceStone_self _ _ _)
  · intro q hqp hnot
    show getStone (removeStones (replaceStone b.stones p color) _) q = getStone b.stones q
    rw [getStone_removeStones, if_neg, getStone_replaceStone_ne b.stones color hqp]
    rw [hfc]
    intro hmem
    obtain ⟨g, hg, hq⟩ := List.mem_flatMap.mp hmem
    exact hnot g hg hq

/-- C1 witness: on a 2×2 board with WHITE at (0,0) and BLACK at (1,0),
BLACK's move at (0,1) captures the lone white stone, via
`c1_capture_removes_exactly_dead_groups`. -/
theorem c1_capture_removes_exactly_dead_groups_witness :
    inBounds 2 (⟨0, 1⟩ : Point) ∧
    getStone [(⟨0, 0⟩, Color.WHITE), (⟨1, 0⟩, Color.BLACK)] ⟨0, 1⟩ = Color.EMPTY ∧
    capturedFromNeighbors
      (replaceStone [(⟨0, 0⟩, Color.WHITE), (⟨1, 0⟩, Color.BLACK)] ⟨0, 1⟩ Color.BLACK)
      2 Color.BLACK ⟨0, 1⟩ ≠ [] ∧
    (∃ b', play ⟨2, [(⟨0, 0⟩, Color.WHITE), (⟨1, 0⟩, Color.BLACK)]⟩ Color.BLACK ⟨0, 1⟩
        = Except.ok b' ∧
      (∀ q, (∃ g ∈ capturedFromNeighbors
          (replaceStone [(⟨0, 0⟩, Color.WHITE), (⟨1, 0⟩, Color.BLACK)] ⟨0, 1⟩ Color.BLACK)
          2 Color.BLACK ⟨0, 1⟩, q ∈ g.stones) →
        getStone b'.stones q = Color.EMPTY ∧
        getStone [(⟨0, 0⟩, Color.WHITE), (⟨1, 0⟩, Color.BLACK)] q ≠ Color.BLACK ∧
        getStone [(⟨0, 0⟩, Color.WHITE), (⟨1, 0⟩, Color.BLACK)] q ≠ Color.EMPTY) ∧
      getStone b'.stones ⟨0, 1⟩ = Color.BLACK ∧
      (∀ q, q ≠ ⟨0, 1⟩ →
        (∀ g ∈ capturedFromNeighbors
          (replaceStone [(⟨0, 0⟩, Color.WHITE), (⟨1, 0⟩, Color.BLACK)] ⟨0, 1⟩ Color.BLACK)
          2 Color.BLACK ⟨0, 1⟩, q ∉ g.stones) →
        getStone b'.stones q = getStone [(⟨0, 0⟩, Color.WHITE), (⟨1, 0⟩, Color.BLACK)] q)) :=
  ⟨by decide, by decide, by decide,
    c1_capture_removes_exactly_dead_groups
      ⟨2, [(⟨0, 0⟩, Color.WHITE), (⟨1, 0⟩, Color.BLACK)]⟩ Color.BLACK ⟨0, 1⟩
      (by decide) (by decide) (by decide)⟩

/-! ## Claim C2 -/

/-- C2: when no opponent group is captured and the newly placed stone's
own group is dead on the tentative board, `play` succeeds and removes
exactly that own group (including `p` itself), leaving every other
intersection unchanged; the witness instantiates the spec's 3×3
suicide example. -/
theorem c2_suicide_removes_own_group (b : Board) (color : Color) (p : Point)
    (hin : inBounds b.size p) (hempty : getStone b.stones p = Color.EMPTY)
    (hnone : capturedFromNeighbors (replaceStone b.stones p color) b.size color p = [])
    (hdead : (getGroup (replaceStone b.stones p color) b.size p).liberties = 0) :
    ∃ b', play b color p = Except.ok b' ∧
      getStone b'.stones p = Color.EMPTY ∧
      (∀ q ∈ (getGroup (replaceStone b.stones p color) b.size p).stones,
        getStone b'.stones q = Color.EMPTY) ∧
      (∀ q, q ∉ (getGroup (replaceStone b.stones p color) b.size p).stones →
        getStone b'.stones q = getStone b.stones q) := by
  have hok := @play_eq_of_legal b color p hin hempty
  have hfc : finalCaptured (replaceStone b.stones p color) b.size color p
      = [getGroup (replaceStone b.stones p color) b.size p] := by
    unfold finalCaptured
    rw [if_pos ⟨hnone, hdead⟩]
  have hmem_iff : ∀ q, q ∈ ((finalCaptured (replaceStone b.stones p color) b.size color p).flatMap
      (fun g => g.stones)) ↔ q ∈ (getGroup (replaceStone b.stones p color) b.size p).stones := by
    intro q
    rw [hfc]
    simp
  refine ⟨_, hok, ?_, ?_, ?_⟩
  · show getStone (removeStones (replaceStone b.stones p color) _) p = Color.EMPTY
    rw [getStone_removeStones, if_pos]
    exact (hmem_iff p).mpr (getGroup_seed_mem _ _ _)
  · intro q hq
    show getStone (removeStones (replaceStone b.stones p color) _) q = Color.EMPTY
    rw [getStone_removeStones, if_pos ((hmem_iff q).mpr hq)]
  · intro q hq
    have hqp : q ≠ p := fun heq => hq (heq ▸ getGroup_seed_mem _ _ _)
    show getStone (removeStones (replaceStone b.stones p color) _) q = getStone b.stones q
    rw [getStone_removeStones, if_neg (fun hmem => hq ((hmem_iff q).mp hmem)),
      getStone_replaceStone_ne b.stones color hqp]

/-- C2 witness: the spec's 3×3 instance — BLACK at (0,1),(1,0),(1,2),(2,1),
WHITE plays (1,1); the move succeeds, (1,1) reads EMPTY and the four
black stones are intact, via `c2_suicide_removes_own_group`. -/
theorem c2_suicide_removes_own_group_witness :
    (inBounds 3 (⟨1, 1⟩ : Point) ∧
    getStone [(⟨0, 1⟩, Color.BLACK), (⟨1, 0⟩, Color.BLACK), (⟨1, 2⟩, Color.BLACK),
      (⟨2, 1⟩, Color.BLACK)] ⟨1, 1⟩ = Color.EMPTY ∧
    capturedFromNeighbors
      (replaceStone [(⟨0, 1⟩, Color.BLACK), (⟨1, 0⟩, Color.BLACK), (⟨1, 2⟩, Color.BLACK),
        (⟨2, 1⟩, Color.BLACK)] ⟨1, 1⟩ Color.WHITE) 3 Color.WHITE ⟨1, 1⟩ = [] ∧
    (getGroup (replaceStone [(⟨0, 1⟩, Color.BLACK), (⟨1, 0⟩, Color.BLACK),
      (⟨1, 2⟩, Color.BLACK), (⟨2, 1⟩, Color.BLACK)] ⟨1, 1⟩ Color.WHITE) 3 ⟨1, 1⟩).liberties
      = 0 ∧
    (∃ b', play ⟨3, [(⟨0, 1⟩, Color.BLACK), (⟨1, 0⟩, Color.BLACK), (⟨1, 2⟩, Color.BLACK),
        (⟨2, 1⟩, Color.BLACK)]⟩ Color.WHITE ⟨1, 1⟩ = Except.ok b' ∧
      getStone b'.stones ⟨1, 1⟩ = Color.EMPTY ∧
      (∀ q ∈ (getGroup (replaceStone [(⟨0, 1⟩, Color.BLACK), (⟨1, 0⟩, Color.BLACK),
        (⟨1, 2⟩, Color.BLACK), (⟨2, 1⟩, Color.BLACK)] ⟨1, 1⟩ Color.WHITE) 3 ⟨1, 1⟩).stones,
        getStone b'.stones q = Color.EMPTY) ∧
      (∀ q, q ∉ (getGroup (replaceStone [(⟨0, 1⟩, Color.BLACK), (⟨1, 0⟩, Color.BLACK),
        (⟨1, 2⟩, Color.BLACK), (⟨2, 1⟩, Color.BLACK)] ⟨1, 1⟩ Color.WHITE) 3 ⟨1, 1⟩).stones →
        getStone b'.stones q = getStone [(⟨0, 1⟩, Color.BLACK), (⟨1, 0⟩, Color.BLACK),
          (⟨1, 2⟩, Color.BLACK), (⟨2, 1⟩, Color.BLACK)] q))) ∧
    (play ⟨3, [(⟨0, 1⟩, Color.BLACK), (⟨1, 0⟩, Color.BLACK), (⟨1, 2⟩, Color.BLACK),
        (⟨2, 1⟩, Color.BLACK)]⟩ Color.WHITE ⟨1, 1⟩).toOption.map
      (fun bb => (Board.getStone bb ⟨1, 1⟩, Board.getStone bb ⟨0, 1⟩,
        Board.getStone bb ⟨1, 0⟩, Board.getStone bb ⟨1, 2⟩, Board.getStone bb ⟨2, 1⟩))
      = some (Color.EMPTY, Color.BLACK, Color.BLACK, Color.BLACK, Color.BLACK) :=
  ⟨⟨by decide, by decide, by decide, by decide,
    c2_suicide_removes_own_group
      ⟨3, [(⟨0, 1⟩, Color.BLACK), (⟨1, 0⟩, Color.BLACK), (⟨1, 2⟩, Color.BLACK),
        (⟨2, 1⟩, Color.BLACK)]⟩ Color.WHITE ⟨1, 1⟩ (by decide) (by decide) (by decide)
        (by decide)⟩, by decide⟩

/-! ## Claim C5 -/

/-- C5 counterexample: on the 3×3 board with WHITE at (0,0),(0,1),(1,0)
and BLACK at (0,2),(2,0), BLACK's move at (1,1) reaches the single dead
white group through two different neighbors ((0,1) and (1,0)), and the
capture list contains that group twice — one entry per discovering
neighbor, all with the same stone set — so captured groups are not
deduplicated by stone-set identity. -/
theorem c5_capture_not_deduplicated_counterexample :
    (capturedFromNeighbors
      (replaceStone [(⟨0, 0⟩, Color.WHITE), (⟨0, 1⟩, Color.WHITE), (⟨1, 0⟩, Color.WHITE),
        (⟨0, 2⟩, Color.BLACK), (⟨2, 0⟩, Color.BLACK)] ⟨1, 1⟩ Color.BLACK)
      3 Color.BLACK ⟨1, 1⟩).length = 2 ∧
    (∀ g ∈ capturedFromNeighbors
      (replaceStone [(⟨0, 0⟩, Color.WHITE), (⟨0, 1⟩, Color.WHITE), (⟨1, 0⟩, Color.WHITE),
        (⟨0, 2⟩, Color.BLACK), (⟨2, 0⟩, Color.BLACK)] ⟨1, 1⟩ Color.BLACK)
      3 Color.BLACK ⟨1, 1⟩,
      ∀ g' ∈ capturedFromNeighbors
        (replaceStone [(⟨0, 0⟩, Color.WHITE), (⟨0, 1⟩, Color.WHITE), (⟨1, 0⟩, Color.WHITE),
          (⟨0, 2⟩, Color.BLACK), (⟨2, 0⟩, Color.BLACK)] ⟨1, 1⟩ Color.BLACK)
        3 Color.BLACK ⟨1, 1⟩,
        ∀ q : Point, q ∈ g.stones ↔ q ∈ g'.stones) := by
  refine ⟨by decide, ?_⟩
  have hmap : (capturedFromNeighbors
      (replaceStone [(⟨0, 0⟩, Color.WHITE), (⟨0, 1⟩, Color.WHITE), (⟨1, 0⟩, Color.WHITE),
        (⟨0, 2⟩, Color.BLACK), (⟨2, 0⟩, Color.BLACK)] ⟨1, 1⟩ Color.BLACK)
      3 Color.BLACK ⟨1, 1⟩).map (fun g => g.stones)
      = [[⟨1, 0⟩, ⟨0, 0⟩, ⟨0, 1⟩], [⟨0, 1⟩, ⟨0, 0⟩, ⟨1, 0⟩]] := by decide
  intro g hg g' hg' q
  have h1 : g.stones ∈ [[(⟨1, 0⟩ : Point), ⟨0, 0⟩, ⟨0, 1⟩], [⟨0, 1⟩, ⟨0, 0⟩, ⟨1, 0⟩]] := by
    rw [← hmap]
    exact List.mem_map_of_mem _ hg
  have h2 : g'.stones ∈ [[(⟨1, 0⟩ : Point), ⟨0, 0⟩, ⟨0, 1⟩], [⟨0, 1⟩, ⟨0, 0⟩, ⟨1, 0⟩]] := by
    rw [← hmap]
    exact List.mem_map_of_mem _ hg'
  have e1 : g.stones = [⟨1, 0⟩, ⟨0, 0⟩, ⟨0, 1⟩] ∨ g.stones = [⟨0, 1⟩, ⟨0, 0⟩, ⟨1, 0⟩] := by
    simpa using h1
  have e2 : g'.stones = [⟨1, 0⟩, ⟨0, 0⟩, ⟨0, 1⟩] ∨ g'.stones = [⟨0, 1⟩, ⟨0, 0⟩, ⟨1, 0⟩] := by
    simpa using h2
  rcases e1 with e1 | e1 <;> rcases e2 with e2 | e2 <;> rw [e1, e2] <;>
    constructor <;> intro hq <;>
    simp only [List.mem_cons, List.not_mem_nil, or_false] at hq ⊢ <;> tauto

/-- C5 amended: the capture list holds one entry per opponent neighbor
whose group is dead (no deduplication by stone-set identity happens),
but since clearing an intersection is idempotent, removing the possibly
duplicated captured stones yields exactly the same stones mapping as
removing them deduplicated — the resulting board is as if each dead
group were removed once. -/
theorem c5_capture_removal_dedup_irrelevant (stones : Stones) (size : Int) (color : Color)
    (coords : Point) (q : Point) :
    mapGet (removeStones stones
      ((capturedFromNeighbors stones size color coords).flatMap (fun g => g.stones))) q
    = mapGet (removeStones stones
      ((capturedFromNeighbors stones size color coords).flatMap (fun g => g.stones)).dedup) q := by
  rw [mapGet_removeStones, mapGet_removeStones]
  by_cases hq : q ∈ (capturedFromNeighbors stones size color coords).flatMap (fun g => g.stones)
  · rw [if_pos hq, if_pos (List.mem_dedup.mpr hq)]
  · rw [if_neg hq, if_neg (fun hmem => hq (List.mem_dedup.mp hmem))]

/-! ## Claim C4 -/

lemma finalCaptured_stones_inBounds {T : Stones} {size : Int} {color : Color} {coords : Point}
    (hin : inBounds size coords) :
    ∀ g ∈ finalCaptured T size color coords, ∀ q ∈ g.stones, inBounds size q := by
  intro g hg q hq
  unfold finalCaptured at hg
  by_cases hc : capturedFromNeighbors T size color coords = []
      ∧ (getGroup T size coords).liberties = 0
  · rw [if_pos hc] at hg
    rw [List.mem_singleton] at hg
    subst hg
    rcases getGroup_stones_inBounds T size coords q hq with h | h
    · exact h
    · rw [h]
      exact hin
  · rw [if_neg hc] at hg
    obtain ⟨-, n, hn, -, -, rfl⟩ := mem_capturedFromNeighbors hg
    rcases getGroup_stones_inBounds T size n q hq with h | h
    · exact h
    · rw [h]
      exact mem_getAdjacentIntersections hn

/-- C4 counterexample: the 1×1 board is reachable with no initial
stones; BLACK's (suicidal) move at (0,0) succeeds and yields a reachable
board whose stones mapping binds the key (0,0) to an explicit EMPTY
entry — the "canonical omission" invariant does not hold. -/
theorem c4_explicit_empty_entry_counterexample :
    Reachable ⟨1, [(⟨0, 0⟩, Color.EMPTY)]⟩ ∧
    (⟨0, 0⟩, Color.EMPTY) ∈ (Board.mk 1 [(⟨0, 0⟩, Color.EMPTY)]).stones ∧
    mapGet (Board.mk 1 [(⟨0, 0⟩, Color.EMPTY)]).stones ⟨0, 0⟩ = some Color.EMPTY := by
  refine ⟨?_, by decide, by decide⟩
  exact Reachable.played ⟨1, []⟩ Color.BLACK ⟨0, 0⟩ _
    (Reachable.created 1 ⟨1, []⟩ (by decide)) (by decide)

/-- C4 amended: after a capture or suicide removal the stones mapping
may bind keys to explicit EMPTY entries (cleared intersections are
written back with `stones.set(coord, EMPTY)`, not deleted), so a present
key maps to BLACK, WHITE or EMPTY; `getStone` treats an explicit EMPTY
entry and an absent key identically.  What does hold on every reachable
board is that every present key is in bounds. -/
theorem c4_reachable_keys_inBounds (b : Board) (hr : Reachable b) :
    ∀ p c, (p, c) ∈ b.stones → inBounds b.size p := by
  induction hr with
  | created size bb hok =>
    unfold createBoard at hok
    by_cases h : (some size = none ∨ (some size : Option Int).getD 0 < 0)
    · rw [if_pos h] at hok
      exact absurd hok (by simp)
    · rw [if_neg h] at hok
      have hbb := Except.ok.inj hok
      intro p c hp
      rw [← hbb] at hp
      simp at hp
  | played bb color coords b' hrb hplay ih =>
    by_cases hin : inBounds bb.size coords
    · by_cases hocc : getStone bb.stones coords = Color.EMPTY
      · have hok := @play_eq_of_legal bb color coords hin hocc
        rw [hok] at hplay
        have hb' := Except.ok.inj hplay
        intro p c hp
        rw [← hb'] at hp ⊢
        have hkey : ∃ c', mapGet (removeStones (replaceStone bb.stones coords color)
            ((finalCaptured (replaceStone bb.stones coords color) bb.size color coords).flatMap
              (fun g => g.stones))) p = some c' := mapGet_isSome_of_mem hp
        rw [mapGet_removeStones] at hkey
        by_cases hpL : p ∈ (finalCaptured (replaceStone bb.stones coords color)
            bb.size color coords).flatMap (fun g => g.stones)
        · obtain ⟨g, hg, hpg⟩ := List.mem_flatMap.mp hpL
          exact finalCaptured_stones_inBounds hin g hg p hpg
        · rw [if_neg hpL] at hkey
          obtain ⟨c', hc'⟩ := hkey
          by_cases hpc : p = coords
          · rw [hpc]
            exact hin
          · rw [replaceStone, mapGet_mapSet_ne bb.stones color hpc] at hc'
            exact ih p c' (mapGet_eq_some_mem hc')
      · rw [play_occupied hin hocc] at hplay
        exact absurd hplay (by simp)
    · rw [play_oob hin] at hplay
      exact absurd hplay (by simp)

/-- C4 amended witness: the in-bounds-keys invariant applied to the
reachable 1×1 board produced by the suicide move. -/
theorem c4_reachable_keys_inBounds_witness :
    Reachable ⟨1, [(⟨0, 0⟩, Color.EMPTY)]⟩ ∧ inBounds 1 (⟨0, 0⟩ : Point) := by
  have hreach : Reachable ⟨1, [(⟨0, 0⟩, Color.EMPTY)]⟩ :=
    Reachable.played ⟨1, []⟩ Color.BLACK ⟨0, 0⟩ _
      (Reachable.created 1 ⟨1, []⟩ (by decide)) (by decide)
  exact ⟨hreach,
    c4_reachable_keys_inBounds ⟨1, [(⟨0, 0⟩, Color.EMPTY)]⟩ hreach ⟨0, 0⟩ Color.EMPTY (by decide)⟩

/-! ## Symmetry of adjacency and well-definedness of regions -/

lemma adjacent_symm {size : Int} {p q : Point} (hp : inBounds size p)
    (hq : q ∈ getAdjacentIntersections size p) : p ∈ getAdjacentIntersections size q := by
  unfold getAdjacentIntersections at hq ⊢
  rw [List.mem_filter] at hq ⊢
  obtain ⟨hqmem, _⟩ := hq
  refine ⟨?_, by simpa using hp⟩
  rw [List.mem_map] at hqmem ⊢
  obtain ⟨v, hv, hveq⟩ := hqmem
  simp only [deltas, List.mem_cons, List.not_mem_nil, or_false] at hv
  rcases hv with rfl | rfl | rfl | rfl
  · refine ⟨⟨1, 0⟩, by simp [deltas], ?_⟩
    rw [← hveq]
    cases p with
    | mk a b => simp only [Point.mk.injEq]; constructor <;> omega
  · refine ⟨⟨0, -1⟩, by simp [deltas], ?_⟩
    rw [← hveq]
    cases p with
    | mk a b => simp only [Point.mk.injEq]; constructor <;> omega
  · refine ⟨⟨-1, 0⟩, by simp [deltas], ?_⟩
    rw [← hveq]
    cases p with
    | mk a b => simp only [Point.mk.injEq]; constructor <;> omega
  · refine ⟨⟨0, 1⟩, by simp [deltas], ?_⟩
    rw [← hveq]
    cases p with
    | mk a b => simp only [Point.mk.injEq]; constructor <;> omega

lemma reachesFrom_color {stones : Stones} {size : Int} {color : Color} {a b : Point}
    (hcol : getStone stones a = color) (h : reachesFrom stones size color a b) :
    getStone stones b = color := by
  induction h with
  | refl => exact hcol
  | tail _ hstep _ => exact hstep.2

lemma reachesFrom_inBounds {stones : Stones} {size : Int} {color : Color} {a b : Point}
    (ha : inBounds size a) (h : reachesFrom stones size color a b) : inBounds size b := by
  induction h with
  | refl => exact ha
  | tail _ hstep _ => exact mem_getAdjacentIntersections hstep.1

lemma reachesFrom_symm {stones : Stones} {size : Int} {color : Color} {a b : Point}
    (ha : inBounds size a) (hcol : getStone stones a = color)
    (h : reachesFrom stones size color a b) : reachesFrom stones size color b a := by
  induction h with
  | refl => exact Relation.ReflTransGen.refl
  | tail hab hstep ih =>
    exact Relation.ReflTransGen.head
      ⟨adjacent_symm (reachesFrom_inBounds ha hab) hstep.1, reachesFrom_color hcol hab⟩ ih

/-- Two seeds of the same region discover the same stone set: group
search is well defined on regions. -/
lemma component_mem_iff {stones : Stones} {size : Int} {a x : Point}
    (ha : inBounds size a) (hx : x ∈ (getGroup stones size a).stones) :
    ∀ y, y ∈ (getGroup stones size x).stones ↔ y ∈ (getGroup stones size a).stones := by
  have hcol : getStone stones x = getStone stones a := getGroup_stones_color _ _ _ x hx
  have hax : reachesFrom stones size (getStone stones a) a x :=
    getGroup_stones_sound _ _ _ x hx
  have hxa : reachesFrom stones size (getStone stones a) x a := reachesFrom_symm ha rfl hax
  intro y
  rw [getGroup_stones_iff, getGroup_stones_iff, hcol]
  exact ⟨fun hxy => Relation.ReflTransGen.trans hax hxy,
    fun hay => Relation.ReflTransGen.trans hxa hay⟩

/-- Two seeds of the same region also record the same boundary:
the `surrounding` mapping is determined by the stone set and color. -/
lemma component_surrounding_mem_iff {stones : Stones} {size : Int} {a x : Point}
    (ha : inBounds size a) (hx : x ∈ (getGroup stones size a).stones) :
    ∀ pc : Point × Color, pc ∈ (getGroup stones size x).surrounding ↔
      pc ∈ (getGroup stones size a).surrounding := by
  have hcol : getStone stones x = getStone stones a := getGroup_stones_color _ _ _ x hx
  rintro ⟨n, c⟩
  rw [getGroup_surrounding_mem_iff, getGroup_surrounding_mem_iff, hcol]
  constructor
  · rintro ⟨h1, h2, m, hm, hadj⟩
    exact ⟨h1, h2, m, (component_mem_iff ha hx m).mp hm, hadj⟩
  · rintro ⟨h1, h2, m, hm, hadj⟩
    exact ⟨h1, h2, m, (component_mem_iff ha hx m).mpr hm, hadj⟩

lemma component_distinctSurroundingColors_length {stones : Stones} {size : Int} {a x : Point}
    (ha : inBounds size a) (hx : x ∈ (getGroup stones size a).stones) :
    (distinctSurroundingColors (getGroup stones size x)).length
      = (distinctSurroundingColors (getGroup stones size a)).length := by
  have hfin : ((getGroup stones size x).surrounding.map Prod.snd).toFinset
      = ((getGroup stones size a).surrounding.map Prod.snd).toFinset := by
    ext c
    rw [List.mem_toFinset, List.mem_toFinset, List.mem_map, List.mem_map]
    constructor
    · rintro ⟨pc, hpc, hc⟩
      exact ⟨pc, (component_surrounding_mem_iff ha hx pc).mp hpc, hc⟩
    · rintro ⟨pc, hpc, hc⟩
      exact ⟨pc, (component_surrounding_mem_iff ha hx pc).mpr hpc, hc⟩
  unfold distinctSurroundingColors
  rw [← List.card_toFinset, ← List.card_toFinset, hfin]

/-! ## The loop body of `areaScore` -/

/-- An empty in-bounds point whose region is bordered by zero or at
least two distinct colors: such a region scores for nobody. -/
def badEmpty (stones : Stones) (size : Int) (q : Point) : Prop :=
  getStone stones q = Color.EMPTY ∧
    (distinctSurroundingColors (getGroup stones size q)).length ≠ 1

instance (stones : Stones) (size : Int) (q : Point) : Decidable (badEmpty stones size q) := by
  unfold badEmpty
  infer_instance

lemma scoreStep_mem {stones : Stones} {size : Int} {acc : List Point × (Nat × Nat)}
    {coords : Point} (h : coords ∈ acc.1) : scoreStep stones size acc coords = acc := by
  unfold scoreStep
  rw [if_pos h]

lemma scoreStep_visited_notMem {stones : Stones} {size : Int} {visited : List Point}
    {score : Nat × Nat} {coords : Point} (h : coords ∉ visited) :
    (scoreStep stones size (visited, score) coords).1
      = visited ++ (getGroup stones size coords).stones.filter
          (fun q => decide (q ∉ visited)) := by
  unfold scoreStep
  rw [if_neg h]

lemma scoreStep_score_notMem {stones : Stones} {size : Int} {visited : List Point}
    {score : Nat × Nat} {coords : Point} (h : coords ∉ visited) :
    (scoreStep stones size (visited, score) coords).2
      = (if getStone stones coords = Color.EMPTY then
          match distinctSurroundingColors (getGroup stones size coords) with
          | [c] => addScore score c (getGroup stones size coords).stones.length
          | _ => score
        else addScore score (getStone stones coords)
          (getGroup stones size coords).stones.length) := by
  unfold scoreStep
  rw [if_neg h]

lemma addScore_sum (score : Nat × Nat) (c : Color) (n : Nat) (hc : c ≠ Color.EMPTY) :
    (addScore score c n).1 + (addScore score c n).2 = score.1 + score.2 + n := by
  cases c with
  | EMPTY => exact absurd rfl hc
  | BLACK => simp [addScore]; omega
  | WHITE => simp [addScore]; omega

lemma empty_notMem_distinctSurroundingColors {stones : Stones} {size : Int} {coords : Point}
    (hempty : getStone stones coords = Color.EMPTY) :
    Color.EMPTY ∉ distinctSurroundingColors (getGroup stones size coords) := by
  intro hmem
  unfold distinctSurroundingColors at hmem
  rw [List.mem_dedup] at hmem
  rcases List.mem_map.mp hmem with ⟨⟨n, c⟩, hpc, hc⟩
  have hchar := (getGroup_surrounding_mem_iff stones size coords n c).mp hpc
  rw [hempty] at hchar
  exact hchar.2.1 hc

/-! ## Claim C6 -/

/-- C6: for an unvisited seed, the `areaScore` loop body scores an empty
region to the unique color bordering it when exactly one distinct color
does (that color is never EMPTY), scores it to nobody when zero or more
than one distinct colors border it, and scores a stone group's size to
the stone's color. -/
theorem c6_area_score_region_rule (stones : Stones) (size : Int)
    (visited : List Point) (score : Nat × Nat) (coords : Point)
    (hnv : coords ∉ visited) :
    (getStone stones coords = Color.EMPTY →
      Color.EMPTY ∉ distinctSurroundingColors (getGroup stones size coords) ∧
      (distinctSurroundingColors (getGroup stones size coords) = [Color.BLACK] →
        (scoreStep stones size (visited, score) coords).2
          = (score.1 + (getGroup stones size coords).stones.length, score.2)) ∧
      (distinctSurroundingColors (getGroup stones size coords) = [Color.WHITE] →
        (scoreStep stones size (visited, score) coords).2
          = (score.1, score.2 + (getGroup stones size coords).stones.length)) ∧
      ((distinctSurroundingColors (getGroup stones size coords)).length ≠ 1 →
        (scoreStep stones size (visited, score) coords).2 = score)) ∧
    (getStone stones coords = Color.BLACK →
      (scoreStep stones size (visited, score) coords).2
        = (score.1 + (getGroup stones size coords).stones.length, score.2)) ∧
    (getStone stones coords = Color.WHITE →
      (scoreStep stones size (visited, score) coords).2
        = (score.1, score.2 + (getGroup stones size coords).stones.length)) := by
  refine ⟨fun hemp => ⟨empty_notMem_distinctSurroundingColors hemp, ?_, ?_, ?_⟩, ?_, ?_⟩
  · intro hdsc
    rw [scoreStep_score_notMem hnv, if_pos hemp, hdsc]
    rfl
  · intro hdsc
    rw [scoreStep_score_notMem hnv, if_pos hemp, hdsc]
    rfl
  · intro hlen
    rw [scoreStep_score_notMem hnv, if_pos hemp]
    rcases hd : distinctSurroundingColors (getGroup stones size coords) with - | ⟨c, cs⟩
    · rfl
    · cases cs with
      | nil =>
        rw [hd] at hlen
        simp at hlen
      | cons c2 t => rfl
  · intro hb
    rw [scoreStep_score_notMem hnv, if_neg (by rw [hb]; exact fun h => Color.noConfusion h),
      hb]
    rfl
  · intro hw
    rw [scoreStep_score_notMem hnv, if_neg (by rw [hw]; exact fun h => Color.noConfusion h),
      hw]
    rfl

/-- C6 witness: on a 2×2 board with a single black stone, seeding the
loop body at the empty point (0,1) adds the empty region's size (3) to
BLACK's score, via `c6_area_score_region_rule`. -/
theorem c6_area_score_region_rule_witness :
    (⟨0, 1⟩ : Point) ∉ ([] : List Point) ∧
    getStone [(⟨0, 0⟩, Color.BLACK)] ⟨0, 1⟩ = Color.EMPTY ∧
    distinctSurroundingColors (getGroup [(⟨0, 0⟩, Color.BLACK)] 2 ⟨0, 1⟩) = [Color.BLACK] ∧
    (scoreStep [(⟨0, 0⟩, Color.BLACK)] 2 ([], (3, 5)) ⟨0, 1⟩).2
      = (3 + (getGroup [(⟨0, 0⟩, Color.BLACK)] 2 ⟨0, 1⟩).stones.length, 5) :=
  ⟨by decide, by decide, by decide,
    ((c6_area_score_region_rule [(⟨0, 0⟩, Color.BLACK)] 2 [] (3, 5) ⟨0, 1⟩
      (by decide)).1 (by decide)).2.1 (by decide)⟩

/-! ## Claim C7 -/

lemma allPositions_nodup (size : Int) : (allPositions size).Nodup := by
  unfold allPositions
  rw [List.nodup_flatMap]
  constructor
  · intro i _
    refine List.Nodup.map ?_ (List.nodup_range _)
    intro a b hab
    have := congrArg Point.j hab
    simpa using this
  · have hpw := List.pairwise_lt_range size.toNat
    refine hpw.imp ?_
    intro i j hij x hxi hxj
    rcases List.mem_map.mp hxi with ⟨a, -, rfl⟩
    rcases List.mem_map.mp hxj with ⟨b, -, hb⟩
    have := congrArg Point.i hb
    simp only at this
    omega

lemma allPositions_length (size : Int) : (allPositions size).length = size.toNat ^ 2 := by
  unfold allPositions
  rw [List.length_flatMap]
  have hmap : List.map (List.length ∘ fun (i : Nat) =>
      List.map (fun (j : Nat) => Point.mk (i : Int) (j : Int)) (List.range size.toNat))
      (List.range size.toNat) = List.map (fun _ => size.toNat) (List.range size.toNat) := by
    refine List.map_congr_left ?_
    intro i _
    simp [Function.comp]
  rw [hmap, List.map_const', List.sum_replicate, List.length_range, smul_eq_mul, sq]

/-- The accounting invariant of the `areaScore` fold: the two scores
plus the number of visited points lying in neutral or contested empty
regions always equal the number of visited points, while `visited` stays
nodup, in-bounds, closed under group search, and absorbs every processed
position. -/
lemma areaScore_fold_invariant (stones : Stones) (size : Int) :
    ∀ (todo visited : List Point) (score : Nat × Nat),
      (∀ p ∈ todo, inBounds size p) →
      visited.Nodup →
      (∀ q ∈ visited, inBounds size q) →
      (∀ q ∈ visited, ∀ x ∈ (getGroup stones size q).stones, x ∈ visited) →
      score.1 + score.2
        + ((visited.filter (fun q => decide (badEmpty stones size q))).length)
        = visited.length →
      ((todo.foldl (scoreStep stones size) (visited, score)).1.Nodup ∧
       (∀ q ∈ (todo.foldl (scoreStep stones size) (visited, score)).1, inBounds size q) ∧
       (∀ q ∈ visited, q ∈ (todo.foldl (scoreStep stones size) (visited, score)).1) ∧
       (∀ p ∈ todo, p ∈ (todo.foldl (scoreStep stones size) (visited, score)).1) ∧
       (todo.foldl (scoreStep stones size) (visited, score)).2.1
         + (todo.foldl (scoreStep stones size) (visited, score)).2.2
         + (((todo.foldl (scoreStep stones size) (visited, score)).1.filter
             (fun q => decide (badEmpty stones size q))).length)
         = (todo.foldl (scoreStep stones size) (visited, score)).1.length) := by
  intro todo
  induction todo with
  | nil =>
    intro visited score _ h2 h3 _ h5
    exact ⟨h2, h3, fun q hq => hq, by simp, h5⟩
  | cons p0 rest ih =>
    intro visited score htodo hnd hinb hclosed hacc
    rw [List.foldl_cons]
    by_cases hv : p0 ∈ visited
    · rw [scoreStep_mem hv]
      have hres := ih visited score (fun p hp => htodo p (List.mem_cons_of_mem _ hp))
        hnd hinb hclosed hacc
      refine ⟨hres.1, hres.2.1, hres.2.2.1, ?_, hres.2.2.2.2⟩
      intro p hp
      rcases List.mem_cons.mp hp with h | h
      · rw [h]
        exact hres.2.2.1 p0 hv
      · exact hres.2.2.2.1 p h
    · have hp0in : inBounds size p0 := htodo p0 (List.mem_cons_self _ _)
      have hdisj : ∀ x ∈ (getGroup stones size p0).stones, x ∉ visited := by
        intro x hx hxv
        exact hv (hclosed x hxv p0 ((component_mem_iff hp0in hx p0).mpr
          (getGroup_seed_mem stones size p0)))
      have hfilter : (getGroup stones size p0).stones.filter (fun q => decide (q ∉ visited))
          = (getGroup stones size p0).stones :=
        List.filter_eq_self.mpr (fun a ha => by simpa using hdisj a ha)
      have hvis' : (scoreStep stones size (visited, score) p0).1
          = visited ++ (getGroup stones size p0).stones := by
        rw [scoreStep_visited_notMem hv, hfilter]
      -- component members behave like the seed
      have hmemcolor : ∀ x ∈ (getGroup stones size p0).stones,
          getStone stones x = getStone stones p0 := getGroup_stones_color stones size p0
      have hmemdsc : ∀ x ∈ (getGroup stones size p0).stones,
          (distinctSurroundingColors (getGroup stones size x)).length
            = (distinctSurroundingColors (getGroup stones size p0)).length :=
        fun x hx => component_distinctSurroundingColors_length hp0in hx
      -- new state invariants
      have hnd' : ((scoreStep stones size (visited, score) p0).1).Nodup := by
        rw [hvis', List.nodup_append]
        exact ⟨hnd, getGroup_stones_nodup stones size p0, fun a ha hag => hdisj a hag ha⟩
      have hinb' : ∀ q ∈ (scoreStep stones size (visited, score) p0).1, inBounds size q := by
        rw [hvis']
        intro q hq
        rcases List.mem_append.mp hq with h | h
        · exact hinb q h
        · rcases getGroup_stones_inBounds stones size p0 q h with h2 | h2
          · exact h2
          · rw [h2]
            exact hp0in
      have hclosed' : ∀ q ∈ (scoreStep stones size (visited, score) p0).1,
          ∀ x ∈ (getGroup stones size q).stones,
            x ∈ (scoreStep stones size (visited, score) p0).1 := by
        rw [hvis']
        intro q hq x hx
        rcases List.mem_append.mp hq with h | h
        · exact List.mem_append.mpr (Or.inl (hclosed q h x hx))
        · exact List.mem_append.mpr
            (Or.inr ((component_mem_iff hp0in h x).mp hx))
      -- length bookkeeping
      have hlen' : (scoreStep stones size (visited, score) p0).1.length
          = visited.length + (getGroup stones size p0).stones.length := by
        rw [hvis', List.length_append]
      have hbadsplit : ((scoreStep stones size (visited, score) p0).1.filter
            (fun q => decide (badEmpty stones size q))).length
          = (visited.filter (fun q => decide (badEmpty stones size q))).length
            + ((getGroup stones size p0).stones.filter
              (fun q => decide (badEmpty stones size q))).length := by
        rw [hvis', List.filter_append, List.length_append]
      -- score bookkeeping, by cases on the seed
      have hacc' : (scoreStep stones size (visited, score) p0).2.1
            + (scoreStep stones size (visited, score) p0).2.2
            + (((scoreStep stones size (visited, score) p0).1).filter
              (fun q => decide (badEmpty stones size q))).length
          = (scoreStep stones size (visited, score) p0).1.length := by
        rw [hbadsplit, hlen']
        by_cases hemp : getStone stones p0 = Color.EMPTY
        · by_cases hone : (distinctSurroundingColors (getGroup stones size p0)).length = 1
          · -- good empty region: scored to the unique bordering color
            obtain ⟨c, hc⟩ : ∃ c, distinctSurroundingColors (getGroup stones size p0) = [c] := by
              rcases hd : distinctSurroundingColors (getGroup stones size p0) with - | ⟨c, cs⟩
              · rw [hd] at hone
                simp at hone
              · cases cs with
                | nil => exact ⟨c, rfl⟩
                | cons c2 t =>
                  rw [hd] at hone
                  simp at hone
            have hcne : c ≠ Color.EMPTY := by
              intro hce
              apply empty_notMem_distinctSurroundingColors hemp
              rw [hc, ← hce]
              exact List.mem_singleton.mpr rfl
            have hscore : (scoreStep stones size (visited, score) p0).2
                = addScore score c (getGroup stones size p0).stones.length := by
              rw [scoreStep_score_notMem hv, if_pos hemp, hc]
            have hnobad : ((getGroup stones size p0).stones.filter
                (fun q => decide (badEmpty stones size q))).length = 0 := by
              rw [List.length_eq_zero]
              rw [List.filter_eq_nil_iff]
              intro x hx
              simp only [decide_eq_true_eq]
              rintro ⟨-, hbadx⟩
              exact hbadx (by rw [hmemdsc x hx]; exact hone)
            rw [hscore, hnobad,
              addScore_sum score c (getGroup stones size p0).stones.length hcne]
            omega
          · -- neutral or contested empty region: scores nothing, all members bad
            have hscore : (scoreStep stones size (visited, score) p0).2 = score := by
              rw [scoreStep_score_notMem hv, if_pos hemp]
              rcases hd : distinctSurroundingColors (getGroup stones size p0) with - | ⟨c, cs⟩
              · rfl
              · cases cs with
                | nil =>
                  rw [hd] at hone
                  simp at hone
                | cons c2 t => rfl
            have hallbad : (getGroup stones size p0).stones.filter
                (fun q => decide (badEmpty stones size q))
                = (getGroup stones size p0).stones := by
              rw [List.filter_eq_self]
              intro x hx
              simp only [decide_eq_true_eq]
              exact ⟨by rw [hmemcolor x hx]; exact hemp,
                by rw [hmemdsc x hx]; exact hone⟩
            rw [hscore, hallbad]
            omega
        · -- stone seed: scored to the stone's color, no member is empty
          have hscore : (scoreStep stones size (visited, score) p0).2
              = addScore score (getStone stones p0)
                  (getGroup stones size p0).stones.length := by
            rw [scoreStep_score_notMem hv, if_neg hemp]
          have hnobad : ((getGroup stones size p0).stones.filter
              (fun q => decide (badEmpty stones size q))).length = 0 := by
            rw [List.length_eq_zero]
            rw [List.filter_eq_nil_iff]
            intro x hx
            simp only [decide_eq_true_eq]
            rintro ⟨hbadx, -⟩
            exact hemp (by rw [← hmemcolor x hx]; exact hbadx)
          rw [hscore, hnobad,
            addScore_sum score (getStone stones p0) (getGroup stones size p0).stones.length hemp]
          omega
      have hres := ih (scoreStep stones size (visited, score) p0).1
        (scoreStep stones size (visited, score) p0).2
        (fun p hp => htodo p (List.mem_cons_of_mem _ hp)) hnd' hinb' hclosed' hacc'
      have hmono : ∀ q ∈ visited, q ∈ (rest.foldl (scoreStep stones size)
          ((scoreStep stones size (visited, score) p0).1,
            (scoreStep stones size (visited, score) p0).2)).1 := by
        intro q hq
        refine hres.2.2.1 q ?_
        rw [hvis']
        exact List.mem_append.mpr (Or.inl hq)
      have hp0mem : p0 ∈ (rest.foldl (scoreStep stones size)
          ((scoreStep stones size (visited, score) p0).1,
            (scoreStep stones size (visited, score) p0).2)).1 := by
        refine hres.2.2.1 p0 ?_
        rw [hvis']
        exact List.mem_append.mpr (Or.inr (getGroup_seed_mem stones size p0))
      refine ⟨?_, ?_, ?_, ?_, ?_⟩
      · simpa using hres.1
      · simpa using hres.2.1
      · simpa using hmono
      · intro p hp
        rcases List.mem_cons.mp hp with h | h
        · rw [h]
          simpa using hp0mem
        · simpa using hres.2.2.2.1 p h
      · simpa using hres.2.2.2.2

/-- C7: area scores never exceed the board area, and they exhaust it
exactly when every empty region is bordered by exactly one distinct
color (no neutral or contested empty region exists); the underlying
accounting shows each intersection is counted at most once. -/
theorem c7_area_score_conservation (b : Board) :
    (areaScore b).1 + (areaScore b).2 ≤ b.size.toNat ^ 2 ∧
    ((areaScore b).1 + (areaScore b).2 = b.size.toNat ^ 2 ↔
      ∀ p ∈ allPositions b.size, getStone b.stones p = Color.EMPTY →
        (distinctSurroundingColors (getGroup b.stones b.size p)).length = 1) := by
  obtain ⟨hnd, hinb, -, hall, hacc⟩ :=
    areaScore_fold_invariant b.stones b.size (allPositions b.size) [] (0, 0)
      (fun p hp => mem_allPositions.mp hp) List.nodup_nil (by simp) (by simp) (by simp)
  have hsetiff : ∀ q,
      q ∈ ((allPositions b.size).foldl (scoreStep b.stones b.size) ([], (0, 0))).1 ↔
        q ∈ allPositions b.size := by
    intro q
    exact ⟨fun h => mem_allPositions.mpr (hinb q h), fun h => hall q h⟩
  have hlen : ((allPositions b.size).foldl (scoreStep b.stones b.size) ([], (0, 0))).1.length
      = b.size.toNat ^ 2 := by
    have h1 : ((allPositions b.size).foldl (scoreStep b.stones b.size) ([], (0, 0))).1.toFinset
        = (allPositions b.size).toFinset := by
      ext q
      rw [List.mem_toFinset, List.mem_toFinset]
      exact hsetiff q
    have h2 := List.toFinset_card_of_nodup hnd
    have h3 := List.toFinset_card_of_nodup (allPositions_nodup b.size)
    rw [← allPositions_length b.size, ← h3, ← h1, h2]
  have hareaeq : areaScore b
      = ((allPositions b.size).foldl (scoreStep b.stones b.size) ([], (0, 0))).2 := rfl
  rw [hareaeq]
  constructor
  · omega
  · constructor
    · intro heq p hp hemp
      have hD : (((allPositions b.size).foldl (scoreStep b.stones b.size) ([], (0, 0))).1.filter
          (fun q => decide (badEmpty b.stones b.size q))).length = 0 := by omega
      by_contra hne
      have hpfil : p ∈ ((allPositions b.size).foldl (scoreStep b.stones b.size)
          ([], (0, 0))).1.filter (fun q => decide (badEmpty b.stones b.size q)) :=
        List.mem_filter.mpr ⟨hall p hp, by
          simp only [decide_eq_true_eq]
          exact ⟨hemp, hne⟩⟩
      rw [List.length_eq_zero] at hD
      rw [hD] at hpfil
      simp at hpfil
    · intro hcond
      have hD : (((allPositions b.size).foldl (scoreStep b.stones b.size) ([], (0, 0))).1.filter
          (fun q => decide (badEmpty b.stones b.size q))).length = 0 := by
        rw [List.length_eq_zero, List.filter_eq_nil_iff]
        intro x hx
        simp only [decide_eq_true_eq]
        rintro ⟨hxemp, hxbad⟩
        exact hxbad (hcond x ((hsetiff x).mp hx) hxemp)
      omega

/-- C7 witness: on the 2×2 board with one black stone the scores exhaust
the board (4 = 2²), obtained from the equality direction of
`c7_area_score_conservation`; on the empty 2×2 board the bound 0 ≤ 4
holds while equality fails. -/
theorem c7_area_score_conservation_witness :
    (areaScore ⟨2, [(⟨0, 0⟩, Color.BLACK)]⟩).1 + (areaScore ⟨2, [(⟨0, 0⟩, Color.BLACK)]⟩).2
      = (2 : Int).toNat ^ 2 ∧
    (areaScore ⟨2, []⟩).1 + (areaScore ⟨2, []⟩).2 ≤ (2 : Int).toNat ^ 2 :=
  ⟨(c7_area_score_conservation ⟨2, [(⟨0, 0⟩, Color.BLACK)]⟩).2.mpr (by decide),
    (c7_area_score_conservation ⟨2, []⟩).1⟩

end Weiqi
